import Mathlib

/-!
Verification of the ChordPro → FreeShow processor
(`online_chrodpro_processor.py`) against its natural-language specification.

The Python source is shallowly embedded: pure functions become Lean
functions over `String` / `List Char` / `List String`; the md5 digests the
source uses as content fingerprints are modelled as the identity encoding
of the hashed string (the spec documents the collision-free assumption as
an accepted risk), so two fingerprints are equal exactly when the hashed
strings are equal.
-/

set_option maxHeartbeats 1600000
set_option maxRecDepth 8000

namespace ChordPro

/-! ## Character classes (Python `\s`, the punctuation classes) -/

/-- Non-breaking space, U+00A0 (`FrenchPunctuationHandler.NBSP`). -/
def nbsp : Char := ' '

/-- The characters matched by Python's Unicode `\s` class and stripped by
`str.strip()`: ASCII whitespace, the separator control characters, and the
Unicode space separators (including the non-breaking space U+00A0). -/
def pyWsChars : List Char :=
  ['\t', '\n', '\x0b', '\x0c', '\r', '\x1c', '\x1d', '\x1e', '\x1f', ' ',
   '\x85', ' ', ' ', ' ', ' ', ' ', ' ',
   ' ', ' ', ' ', ' ', ' ', ' ', ' ',
   ' ', ' ', ' ', ' ', '　']

/-- Python regex `\s` on a character. -/
def isWS (c : Char) : Bool := pyWsChars.contains c

/-- The character class `[;:!?»]` of `DOUBLE_PUNCT_PATTERN`. -/
def isDoublePunct (c : Char) : Bool := [';', ':', '!', '?', '»'].contains c

/-! ## `FrenchPunctuationHandler.fix_french_punctuation`

The Python method applies two `re.sub` passes:
`re.sub(r'\s*([;:!?»])', NBSP + group1, text)` and then
`re.sub(r'(«)\s*', group1 + NBSP, text)`.

`re.sub` rewrites the leftmost, non-overlapping matches.  For the first
pattern a match at a position is a (possibly empty) maximal run of `\s`
characters followed by one `[;:!?»]` character (backtracking inside the
run never succeeds because a whitespace character is not in the class), so
the functional rendering below consumes a whole whitespace run at a time.
For the second pattern a match is a `«` followed by the (possibly empty)
maximal run of `\s` characters. -/

/-- First substitution pass: every maximal `\s*`-run followed by a
`[;:!?»]` character (the run may be empty) is replaced by a single NBSP
kept in front of that character. -/
def subDoublePunct : List Char → List Char
  | [] => []
  | c :: rest =>
    if isWS c then
      match _h : (c :: rest).dropWhile isWS with
      | [] => (c :: rest).takeWhile isWS
      | d :: r' =>
        if isDoublePunct d then nbsp :: d :: subDoublePunct r'
        else (c :: rest).takeWhile isWS ++ subDoublePunct (d :: r')
    else if isDoublePunct c then nbsp :: c :: subDoublePunct rest
    else c :: subDoublePunct rest
termination_by l => l.length
decreasing_by
  · have hdwlen : ∀ (m : List Char), (m.dropWhile isWS).length ≤ m.length := by
      intro m
      induction m with
      | nil => simp
      | cons x xs ihm =>
        rw [List.dropWhile_cons]
        split
        · exact Nat.le_succ_of_le ihm
        · simp
    have h1 : ((c :: rest).dropWhile isWS).length ≤ rest.length := by
      rw [List.dropWhile_cons]
      split
      · exact hdwlen rest
      · simp_all
    rw [_h] at h1
    simp only [List.length_cons] at h1 ⊢
    omega
  · have hdwlen : ∀ (m : List Char), (m.dropWhile isWS).length ≤ m.length := by
      intro m
      induction m with
      | nil => simp
      | cons x xs ihm =>
        rw [List.dropWhile_cons]
        split
        · exact Nat.le_succ_of_le ihm
        · simp
    have h1 : ((c :: rest).dropWhile isWS).length ≤ rest.length := by
      rw [List.dropWhile_cons]
      split
      · exact hdwlen rest
      · simp_all
    rw [_h] at h1
    simp only [List.length_cons] at h1 ⊢
    omega
  · simp
  · simp

/-- Second substitution pass: each `«` together with the following
(possibly empty) maximal `\s*`-run is replaced by `«` followed by a
single NBSP. -/
def subGuillemets : List Char → List Char
  | [] => []
  | c :: rest =>
    if c = '«' then c :: nbsp :: subGuillemets (rest.dropWhile isWS)
    else c :: subGuillemets rest
termination_by l => l.length
decreasing_by
  · have hdwlen : ∀ (m : List Char), (m.dropWhile isWS).length ≤ m.length := by
      intro m
      induction m with
      | nil => simp
      | cons x xs ihm =>
        rw [List.dropWhile_cons]
        split
        · exact Nat.le_succ_of_le ihm
        · simp
    have := hdwlen rest
    simp
    omega
  · simp

/-- `FrenchPunctuationHandler.fix_french_punctuation`.  The Python guard
`if not text or not isinstance(text, str): return text` only returns the
empty string unchanged here, and both passes leave the empty string
unchanged, so the guard is behaviourally invisible. -/
def fix_french_punctuation (s : String) : String :=
  String.mk (subGuillemets (subDoublePunct s.data))

/-! ### Normal forms of the two substitution passes -/

/-- A list is in double-punctuation normal form when every `[;:!?»]`
character in it is preceded by exactly the run `[nbsp]` of whitespace:
this is precisely the condition under which `subDoublePunct` acts as the
identity. -/
def doublePunctNormal : List Char → Bool
  | [] => true
  | c :: rest =>
    if isWS c then
      match _h : (c :: rest).dropWhile isWS with
      | [] => true
      | d :: r' =>
        if isDoublePunct d then
          ((c :: rest).takeWhile isWS == [nbsp]) && doublePunctNormal r'
        else doublePunctNormal (d :: r')
    else if isDoublePunct c then false
    else doublePunctNormal rest
termination_by l => l.length
decreasing_by
  · have hdwlen : ∀ (m : List Char), (m.dropWhile isWS).length ≤ m.length := by
      intro m
      induction m with
      | nil => simp
      | cons x xs ihm =>
        rw [List.dropWhile_cons]
        split
        · exact Nat.le_succ_of_le ihm
        · simp
    have h1 : ((c :: rest).dropWhile isWS).length ≤ rest.length := by
      rw [List.dropWhile_cons]
      split
      · exact hdwlen rest
      · simp_all
    rw [_h] at h1
    simp only [List.length_cons] at h1 ⊢
    omega
  · have hdwlen : ∀ (m : List Char), (m.dropWhile isWS).length ≤ m.length := by
      intro m
      induction m with
      | nil => simp
      | cons x xs ihm =>
        rw [List.dropWhile_cons]
        split
        · exact Nat.le_succ_of_le ihm
        · simp
    have h1 : ((c :: rest).dropWhile isWS).length ≤ rest.length := by
      rw [List.dropWhile_cons]
      split
      · exact hdwlen rest
      · simp_all
    rw [_h] at h1
    simp only [List.length_cons] at h1 ⊢
    omega
  · simp

/-- True when the head of the list (if any) is not a whitespace character. -/
def headNonWs : List Char → Bool
  | [] => true
  | e :: _ => !isWS e

/-- A list is in guillemet normal form when every `«` is immediately
followed by an NBSP whose successor, if present, is not whitespace: this
is precisely the condition under which `subGuillemets` acts as the
identity. -/
def guillemetsNormal : List Char → Bool
  | [] => true
  | c :: rest =>
    if c = '«' then
      match rest with
      | [] => false
      | d :: r' => (d == nbsp) && headNonWs r' && guillemetsNormal r'
    else guillemetsNormal rest

/-! ## Python string primitives used by the processor -/

/-- Python `str.strip()`: remove leading and trailing whitespace. -/
def pyStrip (s : String) : String :=
  String.mk (((s.data.dropWhile isWS).reverse.dropWhile isWS).reverse)

/-- Python `str.lower()` (the inputs of interest are ASCII; non-ASCII
letters are left unchanged, which only differs from CPython on non-ASCII
uppercase letters). -/
def pyLower (s : String) : String := String.mk (s.data.map Char.toLower)

/-- Helper for `pyTitle`: the boolean records whether the previous
character was alphabetic. -/
def pyTitleGo : Bool → List Char → List Char
  | _, [] => []
  | prevAlpha, c :: r =>
    (if prevAlpha then c.toLower else c.toUpper) :: pyTitleGo c.isAlpha r

/-- Python `str.title()` (ASCII approximation, as for `pyLower`). -/
def pyTitle (s : String) : String := String.mk (pyTitleGo false s.data)

/-- Python `needle in haystack` substring test. -/
def strHasSub (needle haystack : List Char) : Bool :=
  (List.range (haystack.length + 1)).any (fun i => needle.isPrefixOf (haystack.drop i))

/-- Python `s.startswith(pre)`. -/
def pyStartsWith (s pre : String) : Bool := pre.data.isPrefixOf s.data

/-- Python `content.split('\n')` on the character list. -/
def splitNl : List Char → List (List Char)
  | [] => [[]]
  | c :: rest =>
    match splitNl rest with
    | [] => [[]]
    | h :: t => if c = '\n' then [] :: h :: t else (c :: h) :: t

/-- Python `content.split('\n')`. -/
def pySplitLines (s : String) : List String := (splitNl s.data).map String.mk

/-- Index of the last occurrence of `c` in `l`. -/
def lastIdxOf (c : Char) (l : List Char) : Option Nat :=
  (l.reverse.findIdx? (fun x => x = c)).map (fun k => l.length - 1 - k)

/-! ## Data model -/

/-- `SongMetadata` (`@dataclass` in the source); rows of the external CSV
table.  The CSV loader itself is an out-of-scope collaborator. -/
structure SongMetadata where
  number : String
  title : String
  title2 : String
  original_title : String
  composer : String
  author : String
  key : String
  format : String
  copyright : String
  reference : String
  theme : String
  tune_of : String
  volume : String
  supplement : String
  f1 : String
  link : String
deriving DecidableEq

/-- `ChordProSection` (`@dataclass` in the source). -/
structure ChordProSection where
  name : String
  type : String
  number : Option String
  content : List String
  raw_content : String
deriving DecidableEq

/-- The `current_section_info` dictionary of the parser loop. -/
structure SectionInfo where
  name : String
  type : String
  number : Option String
deriving DecidableEq

/-- The mutable local state of the `parse_chordpro_file` loop. -/
structure ParseState where
  metadata : List (String × String)
  sections : List ChordProSection
  label : Option String
  content : List String
  info : Option SectionInfo
  inSection : Bool
deriving DecidableEq

/-! ## `ChordProProcessor.parse_chordpro_file` -/

/-- The `label_to_type_map` dictionary, in insertion order. -/
def label_to_type_map : List (String × String) :=
  [("refrain", "chorus"), ("chorus", "chorus"), ("strophe", "verse"),
   ("verse", "verse"), ("pont", "bridge"), ("bridge", "bridge"),
   ("introduction", "intro"), ("intro", "intro"), ("fin", "outro"),
   ("outro", "outro")]

/-- Python dict assignment `d[k] = v`: replace in place when the key is
present (insertion order is preserved), append otherwise. -/
def dictInsert (m : List (String × String)) (k v : String) :
    List (String × String) :=
  if (m.lookup k).isSome then
    m.map (fun p => if p.1 = k then (k, v) else p)
  else m ++ [(k, v)]

/-- Model of `re.match(r'\{([^:]+)(?::(.*))?\}', stripped_line)`, returning
the two (unstripped) groups.  Group 1 is the maximal colon-free run after
the brace; when a colon follows, group 2 runs to the last closing brace of
the remainder; when that fails the engine backtracks group 1 to the last
closing brace inside it (which must leave group 1 non-empty). -/
def directiveParse (stripped : List Char) : Option (String × String) :=
  match stripped with
  | '\x7b' :: body =>
    let pre := body.takeWhile (fun c => c ≠ ':')
    if pre.isEmpty then none
    else if pre.length < body.length then
      let post := body.drop (pre.length + 1)
      match lastIdxOf '\x7d' post with
      | some j => some (String.mk pre, String.mk (post.take j))
      | none =>
        match lastIdxOf '\x7d' pre with
        | some j => if 1 ≤ j then some (String.mk (pre.take j), "") else none
        | none => none
    else
      match lastIdxOf '\x7d' pre with
      | some j => if 1 ≤ j then some (String.mk (pre.take j), "") else none
      | none => none
  | _ => none

/-- Model of `re.match(r'([a-zA-Z\s]+)\s*(\d+|[a-zA-Z])$', label_lower)`:
the match succeeds exactly when the string ends in a maximal non-empty
digit run (group 2) or a single letter (group 2) preceded by a non-empty
prefix of letters and whitespace (group 1 together with the `\s*`). -/
def labelOrdinalMatch (l : List Char) : Option (List Char × List Char) :=
  match l.reverse with
  | [] => none
  | c :: _ =>
    if c.isDigit then
      let digits := (l.reverse.takeWhile Char.isDigit).reverse
      let ini := (l.reverse.dropWhile Char.isDigit).reverse
      if !ini.isEmpty && ini.all (fun x => x.isAlpha || isWS x) then
        some (ini, digits)
      else none
    else if c.isAlpha then
      let ini := l.dropLast
      if !ini.isEmpty && ini.all (fun x => x.isAlpha || isWS x) then
        some (ini, [c])
      else none
    else none

/-- First synonym-table entry whose key is a substring of the type
phrase (`for key, value in label_to_type_map.items(): if key in type_part`). -/
def findTypeFromLabel (type_part : String) : Option String :=
  (label_to_type_map.find? (fun kv => strHasSub kv.1.data type_part.data)).map
    (fun kv => kv.2)

/-- Build a `ChordProSection` from the accumulated loop state
(`raw_content='\n'.join(...)`). -/
def mkSection (info : SectionInfo) (content : List String) : ChordProSection :=
  { name := info.name, type := info.type, number := info.number,
    content := content, raw_content := String.intercalate "\n" content }

/-- Recognizers for the marker lines of the parser. -/
def isCommentLine (line : String) : Bool := pyStartsWith (pyStrip line) "\x7bc:"

def isStartLine (line : String) : Bool :=
  pyStartsWith (pyStrip line) "\x7bstart_of_"

def isEndLine (line : String) : Bool := pyStartsWith (pyStrip line) "\x7bend_of_"

/-- The block-type token of a `{start_of_<blocktype>}` line
(`stripped_line[10:-1].strip()`). -/
def blockTypeOf (line : String) : String :=
  pyStrip (String.mk (((pyStrip line).data.drop 10).dropLast))

/-- Specification predicate: `sec`'s content is exactly the block of input
lines strictly between a start-marker line at index `a` and the next
marker line at index `b` (an end marker, or a start marker forcing the
defensive auto-close), and contains no marker line itself. -/
def SectionSlice (L : List String) (sec : ChordProSection) : Prop :=
  ∃ a b, a < b ∧ b < L.length ∧ isStartLine (L.getD a "") = true ∧
    (isStartLine (L.getD b "") = true ∨ isEndLine (L.getD b "") = true) ∧
    sec.content = (L.drop (a + 1)).take (b - (a + 1)) ∧
    ∀ line ∈ sec.content, isStartLine line = false ∧ isEndLine line = false

/-- Specification predicate: every start-marker line of the input carries
a non-empty block-type token. -/
def StartTokensNonempty (L : List String) : Prop :=
  ∀ l ∈ L, isStartLine l = true → blockTypeOf l ≠ ""

/-- The section name/type/ordinal computed at a `{start_of_<blocktype>}`
line from the block type and the pending label, exactly as in the source:
a non-empty pending label overrides the name; a trailing ordinal is split
off; the synonym table maps the remaining phrase to a canonical type. -/
def startSectionInfo (label : Option String) (block_type : String) :
    SectionInfo :=
  match label with
  | some lab =>
    if lab ≠ "" then
      let label_lower := pyLower lab
      let parts :=
        match labelOrdinalMatch label_lower.data with
        | some (ini, num) => (pyStrip (String.mk ini), some (String.mk num))
        | none => (label_lower, none)
      let section_type :=
        match findTypeFromLabel parts.1 with
        | some v => v
        | none => block_type
      ⟨lab, section_type, parts.2⟩
    else ⟨pyTitle block_type, block_type, none⟩
  | none => ⟨pyTitle block_type, block_type, none⟩

/-- One iteration of the `for line in lines` loop of
`parse_chordpro_file`. -/
def parse_step (st : ParseState) (line : String) : ParseState :=
  let stripped := pyStrip line
  if pyStartsWith stripped "\x7bc:" then
    { st with
      label := some (pyStrip (String.mk ((stripped.data.drop 3).dropLast))),
      content := if st.inSection then st.content ++ [line] else st.content }
  else if pyStartsWith stripped "\x7bstart_of_" then
    let closed :=
      if st.inSection then
        st.sections ++ [mkSection (st.info.getD ⟨"", "", none⟩) st.content]
      else st.sections
    let block_type := pyStrip (String.mk ((stripped.data.drop 10).dropLast))
    let info := startSectionInfo st.label block_type
    { metadata := st.metadata, sections := closed,
      label := if st.label.getD "" ≠ "" then none else st.label,
      content := [], info := some info, inSection := true }
  else if pyStartsWith stripped "\x7bend_of_" then
    if st.inSection then
      { metadata := st.metadata,
        sections := st.sections ++
          [mkSection (st.info.getD ⟨"", "", none⟩) st.content],
        label := st.label, content := [], info := none, inSection := false }
    else st
  else if pyStartsWith stripped "\x7b" then
    let newMeta :=
      match directiveParse stripped.data with
      | some (k, v) => dictInsert st.metadata (pyStrip k) (pyStrip v)
      | none => st.metadata
    { st with
      metadata := newMeta,
      content := if st.inSection then st.content ++ [line] else st.content }
  else if st.inSection then { st with content := st.content ++ [line] }
  else st

/-- The initial loop state of `parse_chordpro_file`. -/
def initState : ParseState :=
  { metadata := [], sections := [], label := none, content := [],
    info := none, inSection := false }

/-- The parser loop over a list of lines. -/
def parseLines (lines : List String) : ParseState :=
  lines.foldl parse_step initState

/-- `ChordProProcessor.parse_chordpro_file` on the raw text (the file
read is an out-of-scope collaborator; the text is split on `'\n'`). -/
def parse_chordpro_file (content : String) :
    List (String × String) × List ChordProSection :=
  let st := parseLines (pySplitLines content)
  (st.metadata, st.sections)

/-! ## `ChordProProcessor.deduplicate_sections` -/

/-- The content lines considered for the fingerprint: comment-label lines
(`{c: ...}`, after stripping) are filtered out. -/
def contentLinesKey (s : ChordProSection) : List String :=
  s.content.filter (fun line => !pyStartsWith (pyStrip line) "\x7bc:")

/-- Python `'\n'.join` on character lists. -/
def nlJoin : List (List Char) → List Char
  | [] => []
  | [x] => x
  | x :: y :: rest => x ++ '\n' :: nlJoin (y :: rest)

/-- The fingerprint input `'\n'.join(content_lines)`.  The md5 hex digest
the source takes of this string is modelled as the identity encoding: the
spec documents hash collisions between distinct strings as an accepted,
ignored risk, so equality of fingerprints is equality of these strings. -/
def content_hash (s : ChordProSection) : List Char :=
  nlJoin ((contentLinesKey s).map String.data)

/-- The value of `section_map` after the unique sections `uniq` have been
recorded, starting from canonical index `i0`: one entry per canonical
section, keyed by its fingerprint. -/
def mkSmap (i0 : Nat) : List ChordProSection → List (List Char × Nat)
  | [] => []
  | u :: us => (content_hash u, i0) :: mkSmap (i0 + 1) us

/-- A throwaway default section (out-of-range `getD` accesses never occur
where it is used). -/
def dfltSection : ChordProSection :=
  { name := "", type := "", number := none, content := [], raw_content := "" }

/-- The loop of `deduplicate_sections`: `uniq` is `unique_sections`,
`smap` is `section_map` (fingerprint → canonical index), `imap` is
`index_map`. -/
def dedupGo : List ChordProSection → List ChordProSection →
    List (List Char × Nat) → List Nat → List ChordProSection × List Nat
  | [], uniq, _, imap => (uniq, imap)
  | s :: rest, uniq, smap, imap =>
    match smap.lookup (content_hash s) with
    | some i => dedupGo rest uniq smap (imap ++ [i])
    | none =>
      dedupGo rest (uniq ++ [s]) (smap ++ [(content_hash s, uniq.length)])
        (imap ++ [uniq.length])

/-- `ChordProProcessor.deduplicate_sections`. -/
def deduplicate_sections (sections : List ChordProSection) :
    List ChordProSection × List Nat :=
  dedupGo sections [] [] []

/-! ## `ChordProProcessor.parse_chord_line` -/

/-- One chord dictionary produced by `parse_chord_line`. -/
structure ChordData where
  id : String
  pos : Int
  key : String
  chord : String
  original_pos : Nat
deriving DecidableEq, Repr

/-- `hashlib.md5(f"{chord}{pos}")[:5]` modelled as the identity encoding
of the hashed string. -/
def chordId (chord : List Char) (pos : Nat) : String :=
  String.mk chord ++ toString pos

/-- The position adjustment: original position minus the bracket-markup
length `len(f"[{c}]")` of every previously found chord strictly to the
left (`if prev_chord['original_pos'] < pos`). -/
def adjustedPos (acc : List ChordData) (pos : Nat) : Int :=
  (pos : Int) -
    ((acc.filter (fun cd => cd.original_pos < pos)).foldl
      (fun a cd => a + ((cd.chord.length : Int) + 2)) 0)

/-- Left-to-right scan for the leftmost non-overlapping matches of
`\[([^\]]+)\]` (as found by `re.finditer` and removed by `re.sub`): the
`pending` state holds, inside a candidate match, the position of its `[`
and the (order-preserved) inner characters read so far; `[]` and an
unclosed `[` are not matches and stay in the clean text. -/
def chordScan : Option (Nat × List Char) → Nat → List ChordData →
    List Char → List ChordData × List Char
  | none, _, acc, [] => (acc, [])
  | some (_, inner), _, acc, [] => (acc, '[' :: inner)
  | none, pos, acc, c :: rest =>
    if c = '[' then chordScan (some (pos, [])) (pos + 1) acc rest
    else
      let r := chordScan none (pos + 1) acc rest
      (r.1, c :: r.2)
  | some (p, inner), pos, acc, c :: rest =>
    if c = ']' then
      if inner.isEmpty then
        let r := chordScan none (pos + 1) acc rest
        (r.1, '[' :: ']' :: r.2)
      else
        let cd : ChordData :=
          { id := chordId inner p, pos := max 0 (adjustedPos acc p),
            key := String.mk inner, chord := String.mk inner,
            original_pos := p }
        chordScan none (pos + 1) (acc ++ [cd]) rest
    else chordScan (some (p, inner ++ [c])) (pos + 1) acc rest

/-- `ChordProProcessor.parse_chord_line`: chord annotations plus the
chord-stripped clean text. -/
def parse_chord_line (line : String) : List ChordData × String :=
  let r := chordScan none 0 [] line.data
  (r.1, String.mk r.2)

/-- The characters a pending candidate match contributes to the clean
text when it turns out not to be a match (its `[` plus the inner
characters read so far). -/
def pendingFlush : Option (Nat × List Char) → List Char
  | none => []
  | some (_, inner) => '[' :: inner

/-- The earliest position at which a chord found from the given state can
start: the pending bracket's position, or the current scan position. -/
def pendingStart (pos : Nat) : Option (Nat × List Char) → Nat
  | none => pos
  | some (p, _) => p

/-- Total bracket-markup length `len(f"[{chord}]")` of a chord list. -/
def sumChordLen (cds : List ChordData) : Nat :=
  cds.foldr (fun cd a => cd.chord.length + 2 + a) 0

/-- A throwaway default chord (out-of-range `getD` accesses never occur
where it is used). -/
def dfltChord : ChordData :=
  { id := "", pos := 0, key := "", chord := "", original_pos := 0 }

/-! ## `ChordProProcessor.create_freeshow_slide` (display-line part) -/

/-- One display line of a slide (the `"value"` text and the chord list of
the source's `line_data`). -/
structure LineData where
  text : String
  chords : List ChordData
deriving DecidableEq

/-- Model of `re.sub(r'^\d+\.\s*', '', s)`: a maximal non-empty leading
digit run followed by a dot and optional whitespace is removed. -/
def stripEnum (l : List Char) : List Char :=
  let digits := l.takeWhile Char.isDigit
  if digits.isEmpty then l
  else
    match l.drop digits.length with
    | '.' :: r2 => r2.dropWhile isWS
    | _ => l

/-- The body of the `for line in section.content` loop of
`create_freeshow_slide`: `None` when the (unstripped) line starts with
`{c:` or is whitespace-only, otherwise the rendered display line. -/
def renderLine (line : String) : Option LineData :=
  if pyStartsWith line "\x7bc:" then none
  else if pyStrip line ≠ "" then
    let r := parse_chord_line line
    some { text := fix_french_punctuation (String.mk (stripEnum r.2.data)),
           chords := r.1 }
  else none

/-- The display lines of the slide built from one section. -/
def create_freeshow_slide_lines (sec : ChordProSection) : List LineData :=
  sec.content.filterMap renderLine

/-! ## `ChordProProcessor.generate_freeshow_file` (slide ids and layout) -/

/-- `hashlib.md5(f"{section.type}{i}{section.raw_content}")[:11]` modelled
as the identity encoding of the hashed string. -/
def slide_id_input (sec : ChordProSection) (i : Nat) : String :=
  sec.type ++ toString i ++ sec.raw_content

/-- The `for i, section in enumerate(unique_sections)` loop collecting
`unique_slide_ids`. -/
def unique_slide_ids_go (i : Nat) : List ChordProSection → List String
  | [] => []
  | s :: rest => slide_id_input s i :: unique_slide_ids_go (i + 1) rest

/-- The `unique_slide_ids` list of `generate_freeshow_file`. -/
def unique_slide_ids (uniq : List ChordProSection) : List String :=
  unique_slide_ids_go 0 uniq

/-- The `layout_slides` list of `generate_freeshow_file` (each entry of
the source is the singleton dict `{"id": slide_id}`; the model keeps the
slide id itself).  Indexing `unique_slide_ids[unique_index]` is total in
the source; the default is never reached. -/
def layout_slides (sections : List ChordProSection) : List String :=
  let r := deduplicate_sections sections
  r.2.map (fun u => (unique_slide_ids r.1).getD u "")

/-! ## `ChordProProcessor.enhance_chordpro` -/

/-- Model of `re.search(r'(\d{4})', s)`: the first run of four
consecutive digits. -/
def findYearGo : List Char → Option String
  | [] => none
  | c :: rest =>
    let four := (c :: rest).take 4
    if four.length = 4 && four.all Char.isDigit then some (String.mk four)
    else findYearGo rest

/-- `re.search(r'(\d{4})', copyright)`. -/
def findYear (s : String) : Option String := findYearGo s.data

/-- The metadata header lines of `enhance_chordpro` (empty on a CSV
lookup miss). -/
def enhance_header_lines (csv : Option SongMetadata) : List String :=
  match csv with
  | none => []
  | some m =>
    ["\x7bnumber: " ++ m.number ++ "\x7d",
     "\x7btitle: " ++ fix_french_punctuation m.title ++ "\x7d"]
    ++ (if m.author ≠ "" then
        ["\x7blyricist: " ++ fix_french_punctuation m.author ++ "\x7d"]
      else [])
    ++ (if m.composer ≠ "" then
        ["\x7bcomposer: " ++ fix_french_punctuation m.composer ++ "\x7d"]
      else [])
    ++ (if m.copyright ≠ "" then
        ["\x7bcopyright: " ++ fix_french_punctuation m.copyright ++ "\x7d"]
        ++ (match findYear m.copyright with
            | some y => ["\x7byear: " ++ y ++ "\x7d"]
            | none => [])
      else [])

/-- The re-serialized block of one section (French punctuation applied to
the lines that are not directives). -/
def section_block (s : ChordProSection) : List String :=
  ["\x7bstart_of_" ++ s.type ++ "\x7d"]
  ++ s.content.map (fun line =>
      if !pyStartsWith (pyStrip line) "\x7b" then fix_french_punctuation line
      else line)
  ++ ["\x7bend_of_" ++ s.type ++ "\x7d", ""]

/-- The full `output_lines` list of `enhance_chordpro` (the file write
with `'\n'.join` is the out-of-scope sink). -/
def enhance_output_lines (csv : Option SongMetadata)
    (file_metadata : List (String × String))
    (sections : List ChordProSection) : List String :=
  enhance_header_lines csv
  ++ (match file_metadata.lookup "key" with
      | some v => ["\x7bkey: " ++ v ++ "\x7d"]
      | none => [])
  ++ [""]
  ++ sections.flatMap section_block

/-- `ChordProProcessor.enhance_chordpro`: `stem` is `Path(filepath).stem`,
`table` is the loaded CSV metadata keyed by lowercased stem
(`self.metadata`), `content` the raw file text. -/
def enhance_chordpro (table : List (String × SongMetadata)) (stem : String)
    (content : String) : List String :=
  let r := parse_chordpro_file content
  enhance_output_lines (table.lookup (pyLower stem)) r.1 r.2

/-! ### Character-class facts -/

theorem dropWhile_length_le (p : α → Bool) (l : List α) :
    (l.dropWhile p).length ≤ l.length := by
  induction l with
  | nil => simp
  | cons c rest ih =>
    rw [List.dropWhile_cons]
    split
    · exact Nat.le_succ_of_le ih
    · simp


theorem isWS_nbsp : isWS nbsp = true := by decide

theorem mem_of_isDoublePunct {c : Char} (h : isDoublePunct c = true) :
    c = ';' ∨ c = ':' ∨ c = '!' ∨ c = '?' ∨ c = '»' := by
  have h2 := List.mem_of_elem_eq_true h
  simp only [List.mem_cons, List.not_mem_nil, or_false] at h2
  exact h2

theorem not_isWS_of_isDoublePunct {c : Char} (h : isDoublePunct c = true) :
    isWS c = false := by
  rcases mem_of_isDoublePunct h with rfl | rfl | rfl | rfl | rfl <;> decide

theorem ne_guillemet_of_isDoublePunct {c : Char} (h : isDoublePunct c = true) :
    c ≠ '«' := by
  rcases mem_of_isDoublePunct h with rfl | rfl | rfl | rfl | rfl <;> decide

theorem not_isWS_guillemet : isWS '«' = false := by decide

theorem nbsp_ne_guillemet : nbsp ≠ '«' := by decide

theorem not_isDoublePunct_nbsp : isDoublePunct nbsp = false := by decide

theorem not_isDoublePunct_guillemet : isDoublePunct '«' = false := by decide

/-! ### Branch equations for the substitution passes -/

theorem sub1_nil : subDoublePunct [] = [] := by
  rw [subDoublePunct]

theorem dpn_nil : doublePunctNormal [] = true := by
  rw [doublePunctNormal]

theorem sg_nil : subGuillemets [] = [] := by
  rw [subGuillemets]

theorem gn_nil : guillemetsNormal [] = true := by
  rw [guillemetsNormal]

theorem sub1_ws_nil {c : Char} {rest : List Char} (h : isWS c = true)
    (hd : (c :: rest).dropWhile isWS = []) :
    subDoublePunct (c :: rest) = (c :: rest).takeWhile isWS := by
  rw [subDoublePunct]
  rw [if_pos h]
  split
  · rfl
  · rename_i d r' heq
    rw [hd] at heq
    cases heq

theorem sub1_ws_punct {c d : Char} {rest r' : List Char} (h : isWS c = true)
    (hd : (c :: rest).dropWhile isWS = d :: r') (hp : isDoublePunct d = true) :
    subDoublePunct (c :: rest) = nbsp :: d :: subDoublePunct r' := by
  rw [subDoublePunct]
  rw [if_pos h]
  split
  · rename_i heq
    rw [hd] at heq
    cases heq
  · rename_i d2 r2 heq
    rw [hd] at heq
    cases heq
    rw [if_pos hp]

theorem sub1_ws_nopunct {c d : Char} {rest r' : List Char} (h : isWS c = true)
    (hd : (c :: rest).dropWhile isWS = d :: r') (hp : isDoublePunct d = false) :
    subDoublePunct (c :: rest) =
      (c :: rest).takeWhile isWS ++ subDoublePunct (d :: r') := by
  rw [subDoublePunct]
  rw [if_pos h]
  split
  · rename_i heq
    rw [hd] at heq
    cases heq
  · rename_i d2 r2 heq
    rw [hd] at heq
    cases heq
    rw [if_neg (by simp [hp])]

theorem sub1_punct {c : Char} {rest : List Char} (h : isWS c = false)
    (hp : isDoublePunct c = true) :
    subDoublePunct (c :: rest) = nbsp :: c :: subDoublePunct rest := by
  rw [subDoublePunct]
  rw [if_neg (by simp [h]), if_pos hp]

theorem sub1_other {c : Char} {rest : List Char} (h : isWS c = false)
    (hp : isDoublePunct c = false) :
    subDoublePunct (c :: rest) = c :: subDoublePunct rest := by
  rw [subDoublePunct]
  rw [if_neg (by simp [h]), if_neg (by simp [hp])]

theorem dpn_ws_nil {c : Char} {rest : List Char} (h : isWS c = true)
    (hd : (c :: rest).dropWhile isWS = []) :
    doublePunctNormal (c :: rest) = true := by
  rw [doublePunctNormal]
  rw [if_pos h]
  split
  · rfl
  · rename_i d r' heq
    rw [hd] at heq
    cases heq

theorem dpn_ws_punct {c d : Char} {rest r' : List Char} (h : isWS c = true)
    (hd : (c :: rest).dropWhile isWS = d :: r') (hp : isDoublePunct d = true) :
    doublePunctNormal (c :: rest) =
      (((c :: rest).takeWhile isWS == [nbsp]) && doublePunctNormal r') := by
  rw [doublePunctNormal]
  rw [if_pos h]
  split
  · rename_i heq
    rw [hd] at heq
    cases heq
  · rename_i d2 r2 heq
    rw [hd] at heq
    cases heq
    rw [if_pos hp]

theorem dpn_ws_nopunct {c d : Char} {rest r' : List Char} (h : isWS c = true)
    (hd : (c :: rest).dropWhile isWS = d :: r') (hp : isDoublePunct d = false) :
    doublePunctNormal (c :: rest) = doublePunctNormal (d :: r') := by
  rw [doublePunctNormal]
  rw [if_pos h]
  split
  · rename_i heq
    rw [hd] at heq
    cases heq
  · rename_i d2 r2 heq
    rw [hd] at heq
    cases heq
    rw [if_neg (by simp [hp])]

theorem dpn_punct {c : Char} {rest : List Char} (h : isWS c = false)
    (hp : isDoublePunct c = true) :
    doublePunctNormal (c :: rest) = false := by
  rw [doublePunctNormal]
  rw [if_neg (by simp [h]), if_pos hp]

theorem dpn_other {c : Char} {rest : List Char} (h : isWS c = false)
    (hp : isDoublePunct c = false) :
    doublePunctNormal (c :: rest) = doublePunctNormal rest := by
  rw [doublePunctNormal]
  rw [if_neg (by simp [h]), if_neg (by simp [hp])]

theorem sg_guillemet (rest : List Char) :
    subGuillemets ('«' :: rest) = '«' :: nbsp :: subGuillemets (rest.dropWhile isWS) := by
  rw [subGuillemets]
  rw [if_pos rfl]

theorem sg_other {c : Char} (rest : List Char) (h : c ≠ '«') :
    subGuillemets (c :: rest) = c :: subGuillemets rest := by
  rw [subGuillemets]
  rw [if_neg h]

/-! ### Structural helpers about whitespace runs -/

theorem dropWhile_head_not_ws :
    ∀ {l : List Char} {d : Char} {r' : List Char},
      l.dropWhile isWS = d :: r' → isWS d = false := by
  intro l
  induction l with
  | nil => intro d r' h; cases h
  | cons c cs ih =>
    intro d r' h
    rw [List.dropWhile_cons] at h
    split at h
    · exact ih h
    · rename_i hc
      cases h
      simpa using hc

theorem dropWhile_nonws_head {d : Char} {X : List Char} (h : isWS d = false) :
    (d :: X).dropWhile isWS = d :: X := by
  rw [List.dropWhile_cons]
  simp [h]

theorem takeWhile_nonws_head {d : Char} {X : List Char} (h : isWS d = false) :
    (d :: X).takeWhile isWS = [] := by
  rw [List.takeWhile_cons]
  simp [h]

theorem dropWhile_nbsp_cons {d : Char} {X : List Char} (h : isWS d = false) :
    (nbsp :: d :: X).dropWhile isWS = d :: X := by
  rw [List.dropWhile_cons]
  simp [isWS_nbsp, dropWhile_nonws_head h]

theorem takeWhile_nbsp_cons {d : Char} {X : List Char} (h : isWS d = false) :
    (nbsp :: d :: X).takeWhile isWS = [nbsp] := by
  rw [List.takeWhile_cons]
  simp [isWS_nbsp, takeWhile_nonws_head h]

theorem takeWhile_eq_self_of_drop_nil {l : List Char}
    (hd : l.dropWhile isWS = []) : l.takeWhile isWS = l := by
  have h := List.takeWhile_append_dropWhile (p := isWS) (l := l)
  rw [hd] at h
  simpa using h

theorem dropWhile_ws_append {tw X : List Char} (h : ∀ x ∈ tw, isWS x = true)
    (hX : X.dropWhile isWS = X) : (tw ++ X).dropWhile isWS = X := by
  rw [List.dropWhile_append]
  rw [List.dropWhile_eq_nil_iff.mpr h]
  simp [hX]

theorem dpn_all_ws {l : List Char} (h : ∀ x ∈ l, isWS x = true) :
    doublePunctNormal l = true := by
  cases l with
  | nil => exact dpn_nil
  | cons c cs =>
    exact dpn_ws_nil (h c (by simp)) (List.dropWhile_eq_nil_iff.mpr h)

/-! ### The first pass establishes and is fixed by its normal form -/

theorem dpn_subDoublePunct (l : List Char) :
    doublePunctNormal (subDoublePunct l) = true := by
  induction l using subDoublePunct.induct with
  | case1 => rw [sub1_nil]; exact dpn_nil
  | case2 c rest hws hnil =>
    rw [sub1_ws_nil hws hnil]
    exact dpn_all_ws (fun x hx => List.mem_takeWhile_imp hx)
  | case3 c rest hws d r' hd hp ih =>
    rw [sub1_ws_punct hws hd hp]
    have hdws : isWS d = false := not_isWS_of_isDoublePunct hp
    rw [dpn_ws_punct isWS_nbsp (dropWhile_nbsp_cons hdws) hp]
    rw [takeWhile_nbsp_cons hdws]
    simp [ih]
  | case4 c rest hws d r' hd hp ih =>
    have hpf : isDoublePunct d = false := by simpa using hp
    have hdws : isWS d = false := dropWhile_head_not_ws hd
    rw [sub1_ws_nopunct hws hd hpf]
    rw [sub1_other hdws hpf] at ih ⊢
    have htw : (c :: rest).takeWhile isWS = c :: rest.takeWhile isWS := by
      rw [List.takeWhile_cons]
      simp [hws]
    have hd2 : ((c :: rest).takeWhile isWS ++ (d :: subDoublePunct r')).dropWhile isWS
        = d :: subDoublePunct r' :=
      dropWhile_ws_append (fun x hx => List.mem_takeWhile_imp hx)
        (dropWhile_nonws_head hdws)
    rw [htw] at hd2 ⊢
    rw [List.cons_append] at hd2 ⊢
    rw [dpn_ws_nopunct hws hd2 hpf]
    exact ih
  | case5 c rest hws hp =>
    have hcf : isWS c = false := by simpa using hws
    rw [sub1_punct hcf hp]
    have hdws : isWS c = false := hcf
    rw [dpn_ws_punct isWS_nbsp (dropWhile_nbsp_cons hdws) hp]
    rw [takeWhile_nbsp_cons hdws]
    rename_i ih
    simp [ih]
  | case6 c rest hws hp ih =>
    have hcf : isWS c = false := by simpa using hws
    have hpf : isDoublePunct c = false := by simpa using hp
    rw [sub1_other hcf hpf]
    rw [dpn_other hcf hpf]
    exact ih

theorem sub1_eq_self_of_normal (l : List Char) :
    doublePunctNormal l = true → subDoublePunct l = l := by
  induction l using subDoublePunct.induct with
  | case1 => intro _; exact sub1_nil
  | case2 c rest hws hnil =>
    intro _
    rw [sub1_ws_nil hws hnil, takeWhile_eq_self_of_drop_nil hnil]
  | case3 c rest hws d r' hd hp ih =>
    intro h
    rw [dpn_ws_punct hws hd hp] at h
    rw [Bool.and_eq_true, beq_iff_eq] at h
    obtain ⟨h1, h2⟩ := h
    rw [sub1_ws_punct hws hd hp, ih h2]
    have hl := List.takeWhile_append_dropWhile (p := isWS) (l := c :: rest)
    rw [h1, hd] at hl
    simpa using hl
  | case4 c rest hws d r' hd hp ih =>
    intro h
    have hpf : isDoublePunct d = false := by simpa using hp
    rw [dpn_ws_nopunct hws hd hpf] at h
    rw [sub1_ws_nopunct hws hd hpf, ih h]
    have hl := List.takeWhile_append_dropWhile (p := isWS) (l := c :: rest)
    rw [hd] at hl
    exact hl
  | case5 c rest hws hp =>
    intro h
    have hcf : isWS c = false := by simpa using hws
    rw [dpn_punct hcf hp] at h
    cases h
  | case6 c rest hws hp ih =>
    intro h
    have hcf : isWS c = false := by simpa using hws
    have hpf : isDoublePunct c = false := by simpa using hp
    rw [dpn_other hcf hpf] at h
    rw [sub1_other hcf hpf, ih h]

/-! ### Facts about the guillemets pass -/

theorem sg_cons_exists (c : Char) (cs : List Char) :
    ∃ t, subGuillemets (c :: cs) = c :: t := by
  by_cases h : c = '«'
  · subst h
    exact ⟨nbsp :: subGuillemets (cs.dropWhile isWS), sg_guillemet cs⟩
  · exact ⟨subGuillemets cs, sg_other cs h⟩

theorem sg_append_no_guillemet {a : List Char} (b : List Char)
    (h : ∀ x ∈ a, x ≠ '«') :
    subGuillemets (a ++ b) = a ++ subGuillemets b := by
  induction a with
  | nil => simp
  | cons c a' ih =>
    rw [List.cons_append, sg_other _ (h c (by simp))]
    rw [ih (fun x hx => h x (by simp [hx]))]
    rfl

theorem sg_eq_self_of_no_guillemet {l : List Char} (h : ∀ x ∈ l, x ≠ '«') :
    subGuillemets l = l := by
  have h2 := sg_append_no_guillemet (a := l) [] h
  rw [sg_nil] at h2
  simpa using h2

theorem gn_guillemet (d : Char) (r' : List Char) :
    guillemetsNormal ('«' :: d :: r') =
      ((d == nbsp) && headNonWs r' && guillemetsNormal r') := by
  rfl

theorem gn_guillemet_nil : guillemetsNormal ['«'] = false := by
  rfl

theorem gn_other {c : Char} (rest : List Char) (h : c ≠ '«') :
    guillemetsNormal (c :: rest) = guillemetsNormal rest := by
  rw [guillemetsNormal.eq_def]
  simp only [if_neg h]

/-- The guillemets pass establishes its own normal form. -/
theorem gn_subGuillemets (l : List Char) :
    guillemetsNormal (subGuillemets l) = true := by
  induction l using subGuillemets.induct with
  | case1 => rw [sg_nil]; exact gn_nil
  | case2 rest ih =>
    rw [sg_guillemet]
    rw [gn_guillemet]
    have hhead : headNonWs (subGuillemets (rest.dropWhile isWS)) = true := by
      cases hR : rest.dropWhile isWS with
      | nil => rw [sg_nil]; rfl
      | cons e R1 =>
        have he : isWS e = false := dropWhile_head_not_ws hR
        obtain ⟨t, hsg⟩ := sg_cons_exists e R1
        rw [hsg]
        simp [headNonWs, he]
    simp [hhead, ih]
  | case3 c rest hc ih =>
    rw [sg_other _ hc, gn_other _ hc]
    exact ih

/-- Auxiliary form of `dpn_subGuillemets`, by induction on a length bound. -/
theorem dpn_subGuillemets_aux :
    ∀ (n : Nat) (l : List Char), l.length ≤ n → doublePunctNormal l = true →
      doublePunctNormal (subGuillemets l) = true := by
  intro n
  induction n with
  | zero =>
    intro l hl _h
    have hnil : l = [] := List.length_eq_zero.mp (Nat.le_zero.mp hl)
    subst hnil
    rw [sg_nil]
    exact dpn_nil
  | succ n ihn =>
    intro l hl h
    cases l with
    | nil =>
      rw [sg_nil]
      exact dpn_nil
    | cons c rest =>
      by_cases hlag : c = '«'
      · subst hlag
        rw [dpn_other not_isWS_guillemet not_isDoublePunct_guillemet] at h
        rw [sg_guillemet]
        rw [dpn_other not_isWS_guillemet not_isDoublePunct_guillemet]
        cases hR : rest.dropWhile isWS with
        | nil =>
          rw [sg_nil]
          exact dpn_ws_nil isWS_nbsp (by simp [List.dropWhile_cons, isWS_nbsp])
        | cons e R1 =>
          have he : isWS e = false := dropWhile_head_not_ws hR
          have hRlen : (e :: R1).length ≤ rest.length := by
            have h1 := dropWhile_length_le isWS rest
            rw [hR] at h1
            exact h1
          by_cases hpe : isDoublePunct e = true
          · have hee : e ≠ '«' := ne_guillemet_of_isDoublePunct hpe
            have hdpnR1 : doublePunctNormal R1 = true := by
              cases rest with
              | nil => simp at hR
              | cons c2 rest2 =>
                by_cases hws2 : isWS c2 = true
                · rw [dpn_ws_punct hws2 hR hpe, Bool.and_eq_true] at h
                  exact h.2
                · have hc2 : isWS c2 = false := by simpa using hws2
                  rw [dropWhile_nonws_head hc2] at hR
                  cases hR
                  rw [dpn_punct hc2 hpe] at h
                  cases h
            have hR1len : R1.length ≤ n := by
              simp only [List.length_cons] at hRlen hl
              omega
            rw [sg_other _ hee]
            rw [dpn_ws_punct isWS_nbsp (dropWhile_nbsp_cons he) hpe]
            rw [takeWhile_nbsp_cons he]
            simp [ihn R1 hR1len hdpnR1]
          · have hpf : isDoublePunct e = false := by simpa using hpe
            have hdpnR : doublePunctNormal (e :: R1) = true := by
              cases rest with
              | nil => simp at hR
              | cons c2 rest2 =>
                by_cases hws2 : isWS c2 = true
                · rw [dpn_ws_nopunct hws2 hR hpf] at h
                  exact h
                · have hc2 : isWS c2 = false := by simpa using hws2
                  rw [dropWhile_nonws_head hc2] at hR
                  cases hR
                  exact h
            have hRlen2 : (e :: R1).length ≤ n := by
              simp only [List.length_cons] at hRlen hl
              simp only [List.length_cons]
              omega
            obtain ⟨t, hsg⟩ := sg_cons_exists e R1
            rw [hsg]
            rw [dpn_ws_nopunct isWS_nbsp (dropWhile_nbsp_cons he) hpf]
            rw [← hsg]
            exact ihn (e :: R1) hRlen2 hdpnR
      · by_cases hwsc : isWS c = true
        · cases hR : (c :: rest).dropWhile isWS with
          | nil =>
            have hall : ∀ x ∈ c :: rest, isWS x = true :=
              List.dropWhile_eq_nil_iff.mp hR
            have hng : ∀ x ∈ c :: rest, x ≠ '«' := by
              intro x hx heq
              have hx2 := hall x hx
              rw [heq, not_isWS_guillemet] at hx2
              cases hx2
            rw [sg_eq_self_of_no_guillemet hng]
            exact h
          | cons d r' =>
            have hd : isWS d = false := dropWhile_head_not_ws hR
            have hRlen : (d :: r').length ≤ rest.length := by
              have h1 : ((c :: rest).dropWhile isWS).length ≤ rest.length := by
                rw [List.dropWhile_cons]
                simp only [hwsc, if_true]
                exact dropWhile_length_le isWS rest
              rw [hR] at h1
              exact h1
            by_cases hpd : isDoublePunct d = true
            · rw [dpn_ws_punct hwsc hR hpd, Bool.and_eq_true, beq_iff_eq] at h
              obtain ⟨h1, h2⟩ := h
              have hl2 := List.takeWhile_append_dropWhile (p := isWS) (l := c :: rest)
              rw [h1, hR] at hl2
              simp only [List.cons_append, List.nil_append] at hl2
              have hdg : d ≠ '«' := ne_guillemet_of_isDoublePunct hpd
              have hr'len : r'.length ≤ n := by
                simp only [List.length_cons] at hRlen hl
                omega
              cases hl2
              rw [sg_other _ nbsp_ne_guillemet, sg_other _ hdg]
              rw [dpn_ws_punct isWS_nbsp (dropWhile_nbsp_cons hd) hpd]
              rw [takeWhile_nbsp_cons hd]
              simp [ihn r' hr'len h2]
            · have hpf : isDoublePunct d = false := by simpa using hpd
              rw [dpn_ws_nopunct hwsc hR hpf] at h
              have hRlen2 : (d :: r').length ≤ n := by
                simp only [List.length_cons] at hRlen hl
                simp only [List.length_cons]
                omega
              have hng : ∀ x ∈ (c :: rest).takeWhile isWS, x ≠ '«' := by
                intro x hx heq
                have hx2 := List.mem_takeWhile_imp hx
                rw [heq, not_isWS_guillemet] at hx2
                cases hx2
              have hl2 := List.takeWhile_append_dropWhile (p := isWS) (l := c :: rest)
              rw [hR] at hl2
              have htw : (c :: rest).takeWhile isWS = c :: rest.takeWhile isWS := by
                rw [List.takeWhile_cons]
                simp [hwsc]
              obtain ⟨t, hsg⟩ := sg_cons_exists d r'
              have hgoal : subGuillemets (c :: rest)
                  = (c :: rest).takeWhile isWS ++ (d :: t) := by
                conv_lhs => rw [← hl2]
                rw [sg_append_no_guillemet _ hng, hsg]
              rw [hgoal]
              have hd2 : ((c :: rest).takeWhile isWS ++ (d :: t)).dropWhile isWS
                  = d :: t :=
                dropWhile_ws_append (fun x hx => List.mem_takeWhile_imp hx)
                  (dropWhile_nonws_head hd)
              rw [htw] at hd2 ⊢
              rw [List.cons_append] at hd2 ⊢
              rw [dpn_ws_nopunct hwsc hd2 hpf]
              rw [← hsg]
              exact ihn (d :: r') hRlen2 h
        · have hcf : isWS c = false := by simpa using hwsc
          by_cases hpc : isDoublePunct c = true
          · rw [dpn_punct hcf hpc] at h
            cases h
          · have hpf : isDoublePunct c = false := by simpa using hpc
            rw [dpn_other hcf hpf] at h
            rw [sg_other _ hlag]
            rw [dpn_other hcf hpf]
            have hrl : rest.length ≤ n := by
              simp only [List.length_cons] at hl
              omega
            exact ihn rest hrl h

/-- The guillemets pass preserves double-punctuation normal form. -/
theorem dpn_subGuillemets (l : List Char) (h : doublePunctNormal l = true) :
    doublePunctNormal (subGuillemets l) = true :=
  dpn_subGuillemets_aux l.length l le_rfl h

/-! ### The passes only touch whitespace, and are the identity without
special characters -/

/-- The first pass preserves the subsequence of non-whitespace characters. -/
theorem filter_subDoublePunct (l : List Char) :
    (subDoublePunct l).filter (fun c => !isWS c) = l.filter (fun c => !isWS c) := by
  induction l using subDoublePunct.induct with
  | case1 => rw [sub1_nil]
  | case2 c rest hws hnil =>
    rw [sub1_ws_nil hws hnil]
    have h1 : ((c :: rest).takeWhile isWS).filter (fun c => !isWS c) = [] :=
      List.filter_eq_nil_iff.mpr (fun x hx => by simp [List.mem_takeWhile_imp hx])
    have h2 : (c :: rest).filter (fun c => !isWS c) = [] :=
      List.filter_eq_nil_iff.mpr
        (fun x hx => by simp [List.dropWhile_eq_nil_iff.mp hnil x hx])
    rw [h1, h2]
  | case3 c rest hws d r' hd hp ih =>
    rw [sub1_ws_punct hws hd hp]
    have hdws : isWS d = false := not_isWS_of_isDoublePunct hp
    have hl2 := List.takeWhile_append_dropWhile (p := isWS) (l := c :: rest)
    rw [hd] at hl2
    have htw : ((c :: rest).takeWhile isWS).filter (fun c => !isWS c) = [] :=
      List.filter_eq_nil_iff.mpr (fun x hx => by simp [List.mem_takeWhile_imp hx])
    conv_rhs => rw [← hl2]
    simp [List.filter_append, List.filter_cons, htw, isWS_nbsp, hdws, ih]
  | case4 c rest hws d r' hd hp ih =>
    have hpf : isDoublePunct d = false := by simpa using hp
    rw [sub1_ws_nopunct hws hd hpf]
    have hl2 := List.takeWhile_append_dropWhile (p := isWS) (l := c :: rest)
    rw [hd] at hl2
    have htw : ((c :: rest).takeWhile isWS).filter (fun c => !isWS c) = [] :=
      List.filter_eq_nil_iff.mpr (fun x hx => by simp [List.mem_takeWhile_imp hx])
    conv_rhs => rw [← hl2]
    simp [List.filter_append, htw, ih]
  | case5 c rest hws hp =>
    rename_i ih
    have hcf : isWS c = false := by simpa using hws
    rw [sub1_punct hcf hp]
    simp [List.filter_cons, isWS_nbsp, hcf, ih]
  | case6 c rest hws hp ih =>
    have hcf : isWS c = false := by simpa using hws
    have hpf : isDoublePunct c = false := by simpa using hp
    rw [sub1_other hcf hpf]
    simp [List.filter_cons, hcf, ih]

/-- The second pass preserves the subsequence of non-whitespace characters. -/
theorem filter_subGuillemets (l : List Char) :
    (subGuillemets l).filter (fun c => !isWS c) = l.filter (fun c => !isWS c) := by
  induction l using subGuillemets.induct with
  | case1 => rw [sg_nil]
  | case2 rest ih =>
    rw [sg_guillemet]
    have hl2 := List.takeWhile_append_dropWhile (p := isWS) (l := rest)
    have htw : (rest.takeWhile isWS).filter (fun c => !isWS c) = [] :=
      List.filter_eq_nil_iff.mpr (fun x hx => by simp [List.mem_takeWhile_imp hx])
    simp only [List.filter_cons, not_isWS_guillemet, isWS_nbsp, Bool.not_true,
      Bool.not_false, Bool.false_eq_true, if_false, if_true, ih]
    conv_rhs => rw [← hl2]
    rw [List.filter_append, htw, List.nil_append]
  | case3 c rest hc ih =>
    rw [sg_other _ hc]
    rw [List.filter_cons, List.filter_cons, ih]

/-- The first pass is the identity on lists without `[;:!?»]` characters. -/
theorem sub1_eq_self_of_no_punct (l : List Char)
    (h : ∀ x ∈ l, isDoublePunct x = false) : subDoublePunct l = l := by
  induction l using subDoublePunct.induct with
  | case1 => exact sub1_nil
  | case2 c rest hws hnil =>
    rw [sub1_ws_nil hws hnil, takeWhile_eq_self_of_drop_nil hnil]
  | case3 c rest hws d r' hd hp ih =>
    have hdmem : d ∈ c :: rest :=
      (List.dropWhile_sublist isWS).subset (hd ▸ List.mem_cons_self d r')
    rw [h d hdmem] at hp
    cases hp
  | case4 c rest hws d r' hd hp ih =>
    have hpf : isDoublePunct d = false := by simpa using hp
    rw [sub1_ws_nopunct hws hd hpf]
    rw [ih (fun x hx =>
      h x ((List.dropWhile_sublist isWS).subset (hd ▸ hx)))]
    have hl2 := List.takeWhile_append_dropWhile (p := isWS) (l := c :: rest)
    rw [hd] at hl2
    exact hl2
  | case5 c rest hws hp =>
    rw [h c (by simp)] at hp
    cases hp
  | case6 c rest hws hp ih =>
    have hcf : isWS c = false := by simpa using hws
    have hpf : isDoublePunct c = false := by simpa using hp
    rw [sub1_other hcf hpf, ih (fun x hx => h x (by simp [hx]))]

/-- The guillemets pass is the identity on lists in its normal form. -/
theorem sg_eq_self_of_normal (l : List Char) :
    guillemetsNormal l = true → subGuillemets l = l := by
  induction l using subGuillemets.induct with
  | case1 => intro _; exact sg_nil
  | case2 rest ih =>
    intro h
    cases rest with
    | nil => rw [gn_guillemet_nil] at h; cases h
    | cons d r' =>
      rw [gn_guillemet, Bool.and_eq_true, Bool.and_eq_true, beq_iff_eq] at h
      obtain ⟨⟨h1, h2⟩, h3⟩ := h
      subst h1
      have hdrop : (nbsp :: r').dropWhile isWS = r'.dropWhile isWS := by
        rw [List.dropWhile_cons]
        simp [isWS_nbsp]
      have hdrop2 : r'.dropWhile isWS = r' := by
        cases r' with
        | nil => rfl
        | cons e r2 =>
          have he : isWS e = false := by
            simp [headNonWs] at h2
            simpa using h2
          exact dropWhile_nonws_head he
      rw [sg_guillemet]
      rw [hdrop, hdrop2] at ih ⊢
      rw [ih h3]
  | case3 c rest hc ih =>
    intro h
    rw [gn_other _ hc] at h
    rw [sg_other _ hc, ih h]

/-! ### Deduplication invariants -/

theorem mkSmap_append (a : List ChordProSection) (x : ChordProSection) :
    ∀ i0, mkSmap i0 (a ++ [x]) = mkSmap i0 a ++ [(content_hash x, i0 + a.length)] := by
  induction a with
  | nil => intro i0; simp [mkSmap]
  | cons u us ih =>
    intro i0
    rw [List.cons_append, mkSmap, mkSmap, ih (i0 + 1)]
    have harith : i0 + 1 + us.length = i0 + (u :: us).length := by
      rw [List.length_cons]
      omega
    rw [harith, List.cons_append]

theorem lookup_mkSmap_some :
    ∀ (u : List ChordProSection) (i0 i : Nat) (key : List Char),
      (mkSmap i0 u).lookup key = some i →
      i0 ≤ i ∧ i - i0 < u.length ∧
        content_hash (u.getD (i - i0) dfltSection) = key := by
  intro u
  induction u with
  | nil => intro i0 i key h; simp [mkSmap] at h
  | cons u0 us ih =>
    intro i0 i key h
    rw [mkSmap, List.lookup_cons] at h
    cases hbe : key == content_hash u0 with
    | true =>
      rw [hbe] at h
      simp only [Option.some.injEq] at h
      subst h
      refine ⟨Nat.le_refl _, by simp, ?_⟩
      rw [Nat.sub_self]
      simp only [List.getD]
      have : key = content_hash u0 := by
        have := hbe
        simp only [beq_iff_eq] at this
        exact this
      simp [this]
    | false =>
      rw [hbe] at h
      obtain ⟨h1, h2, h3⟩ := ih (i0 + 1) i key h
      refine ⟨by omega, by simp only [List.length_cons]; omega, ?_⟩
      have hsub : i - i0 = (i - (i0 + 1)) + 1 := by omega
      rw [hsub]
      simpa using h3

theorem lookup_mkSmap_none :
    ∀ (u : List ChordProSection) (i0 : Nat) (key : List Char),
      (mkSmap i0 u).lookup key = none →
      ∀ x ∈ u, content_hash x ≠ key := by
  intro u
  induction u with
  | nil => intro i0 key _ x hx; cases hx
  | cons u0 us ih =>
    intro i0 key h x hx
    rw [mkSmap, List.lookup_cons] at h
    cases hbe : key == content_hash u0 with
    | true => rw [hbe] at h; cases h
    | false =>
      rw [hbe] at h
      rcases List.mem_cons.mp hx with rfl | hx2
      · intro hc
        rw [hc] at hbe
        simp at hbe
      · exact ih (i0 + 1) key h x hx2

theorem dedupGo_spec :
    ∀ (rest processed uniq : List ChordProSection)
      (smap : List (List Char × Nat)) (imap : List Nat),
      smap = mkSmap 0 uniq →
      (uniq.map content_hash).Nodup →
      imap.length = processed.length →
      (∀ k, k < processed.length →
        imap.getD k 0 < uniq.length ∧
          content_hash (processed.getD k dfltSection)
            = content_hash (uniq.getD (imap.getD k 0) dfltSection)) →
      (dedupGo rest uniq smap imap).2.length = (processed ++ rest).length ∧
      ((dedupGo rest uniq smap imap).1.map content_hash).Nodup ∧
      (∀ k, k < (processed ++ rest).length →
        (dedupGo rest uniq smap imap).2.getD k 0
            < (dedupGo rest uniq smap imap).1.length ∧
          content_hash ((processed ++ rest).getD k dfltSection)
            = content_hash ((dedupGo rest uniq smap imap).1.getD
                ((dedupGo rest uniq smap imap).2.getD k 0) dfltSection)) := by
  intro rest
  induction rest with
  | nil =>
    intro processed uniq smap imap hsmap hnodup hlen hlink
    rw [dedupGo]
    simp only [List.append_nil]
    exact ⟨hlen, hnodup, hlink⟩
  | cons s rest' ih =>
    intro processed uniq smap imap hsmap hnodup hlen hlink
    rw [dedupGo]
    cases hlk : smap.lookup (content_hash s) with
    | some i =>
      have hmain := ih (processed ++ [s]) uniq smap (imap ++ [i]) hsmap hnodup
        (by simp [hlen])
        (by
          intro k hk
          rw [List.length_append, List.length_singleton] at hk
          by_cases hklt : k < processed.length
          · rw [List.getD_append _ _ _ _ (by omega),
              List.getD_append _ _ _ _ (by omega)]
            exact hlink k hklt
          · have hkeq : k = processed.length := by omega
            subst hkeq
            have hg1 : (imap ++ [i]).getD processed.length 0 = i := by
              rw [List.getD_append_right _ _ _ _ (by omega), hlen]
              simp
            have hg2 : (processed ++ [s]).getD processed.length dfltSection = s := by
              rw [List.getD_append_right _ _ _ _ (by omega)]
              simp
            rw [hg1, hg2]
            rw [hsmap] at hlk
            obtain ⟨_, hb, hkey⟩ := lookup_mkSmap_some uniq 0 i _ hlk
            rw [Nat.sub_zero] at hb hkey
            exact ⟨hb, hkey.symm⟩)
      rw [List.append_assoc, List.singleton_append] at hmain
      exact hmain
    | none =>
      rw [hsmap] at hlk
      have hfresh := lookup_mkSmap_none uniq 0 _ hlk
      have hmain := ih (processed ++ [s]) (uniq ++ [s])
        (mkSmap 0 uniq ++ [(content_hash s, uniq.length)])
        (imap ++ [uniq.length])
        (by rw [mkSmap_append]; simp)
        (by
          rw [List.map_append, List.nodup_append]
          refine ⟨hnodup, by simp, ?_⟩
          intro x hx hy
          simp only [List.map_cons, List.map_nil, List.mem_cons,
            List.not_mem_nil, or_false] at hy
          obtain ⟨u, hu, hux⟩ := List.mem_map.mp hx
          exact hfresh u hu (by rw [hux, hy]))
        (by simp [hlen])
        (by
          intro k hk
          rw [List.length_append, List.length_singleton] at hk
          by_cases hklt : k < processed.length
          · rw [List.getD_append _ _ _ _ (by omega),
              List.getD_append _ _ _ _ (by omega)]
            obtain ⟨hb, hl2⟩ := hlink k hklt
            refine ⟨by rw [List.length_append]; omega, ?_⟩
            rw [List.getD_append _ _ _ _ (by omega)]
            exact hl2
          · have hkeq : k = processed.length := by omega
            subst hkeq
            have hg1 : (imap ++ [uniq.length]).getD processed.length 0
                = uniq.length := by
              rw [List.getD_append_right _ _ _ _ (by omega), hlen]
              simp
            have hg2 : (processed ++ [s]).getD processed.length dfltSection
                = s := by
              rw [List.getD_append_right _ _ _ _ (by omega)]
              simp
            have hg3 : (uniq ++ [s]).getD uniq.length dfltSection = s := by
              rw [List.getD_append_right _ _ _ _ (by omega)]
              simp
            rw [hg1, hg2, hg3]
            exact ⟨by simp, rfl⟩)
      rw [List.append_assoc, List.singleton_append] at hmain
      rw [hsmap]
      exact hmain

/-! ### Injectivity of the newline join on newline-free lines -/

theorem append_nl_inj :
    ∀ (x y u v : List Char), ('\n' ∈ x → False) → ('\n' ∈ y → False) →
      x ++ '\n' :: u = y ++ '\n' :: v → x = y ∧ u = v := by
  intro x
  induction x with
  | nil =>
    intro y u v _ hy h
    cases y with
    | nil => simpa using h
    | cons c y' =>
      simp only [List.nil_append, List.cons_append, List.cons.injEq] at h
      exact absurd (h.1 ▸ List.mem_cons_self c y') (fun hm => hy hm)
  | cons c x' ihx =>
    intro y u v hx hy h
    cases y with
    | nil =>
      simp only [List.cons_append, List.nil_append, List.cons.injEq] at h
      exact absurd (h.1 ▸ List.mem_cons_self c x') (fun hm => hx hm)
    | cons d y' =>
      simp only [List.cons_append, List.cons.injEq] at h
      obtain ⟨rfl, h2⟩ := h
      obtain ⟨hxy, huv⟩ := ihx y' u v
        (fun hm => hx (List.mem_cons_of_mem _ hm))
        (fun hm => hy (List.mem_cons_of_mem _ hm)) h2
      exact ⟨by rw [hxy], huv⟩

theorem nlJoin_inj :
    ∀ (a b : List (List Char)),
      (∀ l ∈ a, '\n' ∈ l → False) → (∀ l ∈ b, '\n' ∈ l → False) →
      a ≠ [] → b ≠ [] → nlJoin a = nlJoin b → a = b := by
  intro a
  induction a with
  | nil => intro b _ _ ha _ _; exact absurd rfl ha
  | cons x a' iha =>
    intro b hna hnb _ hb h
    cases b with
    | nil => exact absurd rfl hb
    | cons y b' =>
      cases ha' : a' with
      | nil =>
        cases hb' : b' with
        | nil =>
          subst ha'
          subst hb'
          rw [nlJoin, nlJoin] at h
          rw [h]
        | cons y2 b2 =>
          subst ha'
          subst hb'
          rw [nlJoin, nlJoin] at h
          exact absurd (h ▸ (List.mem_append_right y (List.mem_cons_self _ _)))
            (fun hm => hna x (List.mem_cons_self _ _) hm)
      | cons x2 a2 =>
        cases hb' : b' with
        | nil =>
          subst ha'
          subst hb'
          rw [nlJoin, nlJoin] at h
          exact absurd (h ▸ (List.mem_append_right x (List.mem_cons_self _ _)))
            (fun hm => hnb y (List.mem_cons_self _ _) hm)
        | cons y2 b2 =>
          subst ha'
          subst hb'
          rw [nlJoin, nlJoin] at h
          obtain ⟨hxy, hrest⟩ := append_nl_inj x y _ _
            (hna x (List.mem_cons_self _ _)) (hnb y (List.mem_cons_self _ _)) h
          have := iha (y2 :: b2)
            (fun l hl => hna l (List.mem_cons_of_mem _ hl))
            (fun l hl => hnb l (List.mem_cons_of_mem _ hl))
            (by simp) (by simp) hrest
          rw [hxy, this]

theorem content_hash_eq_iff_key (s1 s2 : ChordProSection)
    (h1 : ∀ line ∈ contentLinesKey s1, '\n' ∈ line.data → False)
    (h2 : ∀ line ∈ contentLinesKey s2, '\n' ∈ line.data → False)
    (n1 : contentLinesKey s1 ≠ []) (n2 : contentLinesKey s2 ≠ []) :
    content_hash s1 = content_hash s2 ↔
      contentLinesKey s1 = contentLinesKey s2 := by
  constructor
  · intro h
    have hmap := nlJoin_inj ((contentLinesKey s1).map String.data)
      ((contentLinesKey s2).map String.data)
      (by
        intro l hl hm
        obtain ⟨line, hline, rfl⟩ := List.mem_map.mp hl
        exact h1 line hline hm)
      (by
        intro l hl hm
        obtain ⟨line, hline, rfl⟩ := List.mem_map.mp hl
        exact h2 line hline hm)
      (by simpa using n1) (by simpa using n2) h
    have hdinj : Function.Injective String.data := by
      intro a b hab
      have : String.mk a.data = String.mk b.data := by rw [hab]
      exact this
    exact List.map_injective_iff.mpr hdinj hmap
  · intro h
    unfold content_hash
    rw [h]

/-! ### Slide-id enumeration facts -/

theorem unique_slide_ids_go_length :
    ∀ (l : List ChordProSection) (i0 : Nat),
      (unique_slide_ids_go i0 l).length = l.length := by
  intro l
  induction l with
  | nil => intro i0; rfl
  | cons s rest ih =>
    intro i0
    rw [unique_slide_ids_go, List.length_cons, List.length_cons, ih]

theorem unique_slide_ids_go_getD :
    ∀ (l : List ChordProSection) (i0 k : Nat), k < l.length →
      (unique_slide_ids_go i0 l).getD k ""
        = slide_id_input (l.getD k dfltSection) (i0 + k) := by
  intro l
  induction l with
  | nil => intro i0 k hk; simp at hk
  | cons s rest ih =>
    intro i0 k hk
    rw [unique_slide_ids_go]
    cases k with
    | zero => simp [List.getD]
    | succ k' =>
      have hk' : k' < rest.length := by
        rw [List.length_cons] at hk
        omega
      have harith : i0 + (k' + 1) = (i0 + 1) + k' := by omega
      have hgd : (s :: rest).getD (k' + 1) dfltSection = rest.getD k' dfltSection := by
        simp [List.getD]
      rw [harith, hgd, ← ih (i0 + 1) k' hk']
      simp [List.getD]

/-! ### Marker-line discrimination and parser step facts -/

theorem start_not_comment {s : String}
    (h : pyStartsWith s "\x7bstart_of_" = true) :
    pyStartsWith s "\x7bc:" = false := by
  obtain ⟨t, ht⟩ := List.isPrefixOf_iff_prefix.mp h
  unfold pyStartsWith
  rw [← ht]
  rfl

theorem end_not_comment {s : String}
    (h : pyStartsWith s "\x7bend_of_" = true) :
    pyStartsWith s "\x7bc:" = false := by
  obtain ⟨t, ht⟩ := List.isPrefixOf_iff_prefix.mp h
  unfold pyStartsWith
  rw [← ht]
  rfl

theorem end_not_start {s : String}
    (h : pyStartsWith s "\x7bend_of_" = true) :
    pyStartsWith s "\x7bstart_of_" = false := by
  obtain ⟨t, ht⟩ := List.isPrefixOf_iff_prefix.mp h
  unfold pyStartsWith
  rw [← ht]
  rfl

theorem comment_not_start {s : String}
    (h : pyStartsWith s "\x7bc:" = true) :
    pyStartsWith s "\x7bstart_of_" = false := by
  obtain ⟨t, ht⟩ := List.isPrefixOf_iff_prefix.mp h
  unfold pyStartsWith
  rw [← ht]
  rfl

theorem comment_not_end {s : String}
    (h : pyStartsWith s "\x7bc:" = true) :
    pyStartsWith s "\x7bend_of_" = false := by
  obtain ⟨t, ht⟩ := List.isPrefixOf_iff_prefix.mp h
  unfold pyStartsWith
  rw [← ht]
  rfl

/-- A line that is neither a start nor an end marker never changes the
emitted section list. -/
theorem parse_step_sections_no_marker (st : ParseState) (line : String)
    (h1 : isStartLine line = false) (h2 : isEndLine line = false) :
    (parse_step st line).sections = st.sections := by
  unfold parse_step
  rw [isStartLine] at h1
  rw [isEndLine] at h2
  by_cases hc : pyStartsWith (pyStrip line) "\x7bc:" = true
  · simp [hc]
  · simp only [Bool.not_eq_true] at hc
    simp only [hc, h1, h2, Bool.false_eq_true, if_false]
    by_cases hd : pyStartsWith (pyStrip line) "\x7b" = true
    · simp [hd]
    · simp only [Bool.not_eq_true] at hd
      simp only [hd, Bool.false_eq_true, if_false]
      by_cases hin : st.inSection = true
      · simp [hin]
      · simp only [Bool.not_eq_true] at hin
        simp [hin]

/-- A start-marker line encountered inside a section closes and emits the
open section. -/
theorem parse_step_start (st : ParseState) (line : String)
    (h : isStartLine line = true) (hin : st.inSection = true) :
    (parse_step st line).sections
      = st.sections ++ [mkSection (st.info.getD ⟨"", "", none⟩) st.content] := by
  unfold parse_step
  rw [isStartLine] at h
  simp [start_not_comment h, h, hin]

/-- Folding marker-free lines never changes the emitted section list. -/
theorem sections_stable :
    ∀ (extra : List String) (st : ParseState),
      (∀ l ∈ extra, isStartLine l = false ∧ isEndLine l = false) →
      (extra.foldl parse_step st).sections = st.sections := by
  intro extra
  induction extra with
  | nil => intro st _; rfl
  | cons l t ih =>
    intro st h
    rw [List.foldl_cons]
    rw [ih (parse_step st l) (fun x hx => h x (List.mem_cons_of_mem _ hx))]
    exact parse_step_sections_no_marker st l
      (h l (List.mem_cons_self _ _)).1 (h l (List.mem_cons_self _ _)).2

/-! ### Parser section-slice invariant -/

theorem SectionSlice_mono {L : List String} {x : String} {sec : ChordProSection}
    (h : SectionSlice L sec) : SectionSlice (L ++ [x]) sec := by
  obtain ⟨a, b, hab, hb, hsa, hsb, hcontent, hmarkers⟩ := h
  refine ⟨a, b, hab, ?_, ?_, ?_, ?_, hmarkers⟩
  · rw [List.length_append, List.length_singleton]
    omega
  · rw [List.getD_append _ _ _ _ (by omega)]
    exact hsa
  · rw [List.getD_append _ _ _ _ hb]
    exact hsb
  · rw [List.drop_append_of_le_length (by omega)]
    rw [List.take_append_of_le_length (by rw [List.length_drop]; omega)]
    exact hcontent

theorem StartTokensNonempty_mono {L : List String} {x : String}
    (h : StartTokensNonempty (L ++ [x])) : StartTokensNonempty L :=
  fun l hl => h l (List.mem_append_left _ hl)

theorem findTypeFromLabel_ne {t v : String}
    (h : findTypeFromLabel t = some v) : v ≠ "" := by
  unfold findTypeFromLabel at h
  cases hf : label_to_type_map.find? (fun kv => strHasSub kv.1.data t.data) with
  | none => rw [hf] at h; cases h
  | some kv =>
    rw [hf] at h
    simp only [Option.map, Option.some.injEq] at h
    have hmem := List.mem_of_find?_eq_some hf
    simp only [label_to_type_map, List.mem_cons, List.not_mem_nil,
      or_false] at hmem
    rcases hmem with rfl | rfl | rfl | rfl | rfl | rfl | rfl | rfl | rfl | rfl <;>
      (rw [← h]; decide)

theorem startSectionInfo_type_ne (lab : Option String) (bt : String)
    (h : bt ≠ "") : (startSectionInfo lab bt).type ≠ "" := by
  unfold startSectionInfo
  cases lab with
  | none => exact h
  | some l =>
    by_cases hl : l = ""
    · subst hl
      simp only [ne_eq, not_true_eq_false, if_false]
      exact h
    · simp only [ne_eq, hl, not_false_eq_true, if_true]
      cases hm : labelOrdinalMatch (pyLower l).data with
      | none =>
        cases hf : findTypeFromLabel (pyLower l) with
        | none => simp [hm, hf]; exact h
        | some v => simp [hm, hf]; exact findTypeFromLabel_ne hf
      | some pr =>
        obtain ⟨ini, num⟩ := pr
        cases hf : findTypeFromLabel (pyStrip (String.mk ini)) with
        | none => simp [hm, hf]; exact h
        | some v => simp [hm, hf]; exact findTypeFromLabel_ne hf

theorem parse_step_start_eq (st : ParseState) (line : String)
    (hs : isStartLine line = true) :
    parse_step st line =
      { metadata := st.metadata,
        sections := if st.inSection then
            st.sections ++ [mkSection (st.info.getD ⟨"", "", none⟩) st.content]
          else st.sections,
        label := if st.label.getD "" ≠ "" then none else st.label,
        content := [],
        info := some (startSectionInfo st.label (blockTypeOf line)),
        inSection := true } := by
  rw [isStartLine] at hs
  unfold parse_step blockTypeOf
  simp [start_not_comment hs, hs]

theorem parse_step_end_eq_in (st : ParseState) (line : String)
    (he : isEndLine line = true) (hin : st.inSection = true) :
    parse_step st line =
      { metadata := st.metadata,
        sections := st.sections ++
          [mkSection (st.info.getD ⟨"", "", none⟩) st.content],
        label := st.label, content := [], info := none,
        inSection := false } := by
  rw [isEndLine] at he
  unfold parse_step
  simp [end_not_comment he, end_not_start he, he, hin]

theorem parse_step_end_eq_out (st : ParseState) (line : String)
    (he : isEndLine line = true) (hin : st.inSection = false) :
    parse_step st line = st := by
  rw [isEndLine] at he
  unfold parse_step
  simp [end_not_comment he, end_not_start he, he, hin]

theorem parse_step_no_marker_proj (st : ParseState) (line : String)
    (hs : isStartLine line = false) (he : isEndLine line = false) :
    (parse_step st line).sections = st.sections ∧
    (parse_step st line).info = st.info ∧
    (parse_step st line).inSection = st.inSection ∧
    (parse_step st line).content
      = (if st.inSection then st.content ++ [line] else st.content) := by
  rw [isStartLine] at hs
  rw [isEndLine] at he
  unfold parse_step
  by_cases hc : pyStartsWith (pyStrip line) "\x7bc:" = true
  · simp [hc]
  · simp only [Bool.not_eq_true] at hc
    simp only [hc, hs, he, Bool.false_eq_true, if_false]
    by_cases hd : pyStartsWith (pyStrip line) "\x7b" = true
    · simp [hd]
    · simp only [Bool.not_eq_true] at hd
      simp only [hd, Bool.false_eq_true, if_false]
      by_cases hin : st.inSection = true
      · simp [hin]
      · simp only [Bool.not_eq_true] at hin
        simp [hin]

theorem emit_slice_of_open {L : List String} {st : ParseState} (line : String)
    (hopen : ∃ a, a < L.length ∧ isStartLine (L.getD a "") = true ∧
      st.content = L.drop (a + 1) ∧
      (∀ l ∈ st.content, isStartLine l = false ∧ isEndLine l = false) ∧
      (StartTokensNonempty L → (st.info.getD ⟨"", "", none⟩).type ≠ ""))
    (hline : isStartLine line = true ∨ isEndLine line = true) :
    SectionSlice (L ++ [line])
        (mkSection (st.info.getD ⟨"", "", none⟩) st.content)
    ∧ (StartTokensNonempty (L ++ [line]) →
        (mkSection (st.info.getD ⟨"", "", none⟩) st.content).type ≠ "") := by
  obtain ⟨a, ha, hsa, hcontent, hmarkers, htype⟩ := hopen
  constructor
  · refine ⟨a, L.length, ha, ?_, ?_, ?_, ?_, ?_⟩
    · rw [List.length_append, List.length_singleton]
      omega
    · rw [List.getD_append _ _ _ _ ha]
      exact hsa
    · rw [List.getD_append_right _ _ _ _ (Nat.le_refl _), Nat.sub_self]
      simpa using hline
    · show st.content = _
      rw [List.drop_append_of_le_length (by omega)]
      rw [hcontent]
      have hlen : (L.drop (a + 1)).length = L.length - (a + 1) :=
        List.length_drop _ _
      rw [← hlen, List.take_left]
    · exact hmarkers
  · intro hST
    exact htype (StartTokensNonempty_mono hST)

/-- The parser invariant: every emitted section is an exact marker-free
slice between its boundary markers, and an open section's accumulated
content is the suffix after its start marker. -/
theorem parse_inv_aux (L : List String) :
    (∀ sec ∈ (parseLines L).sections,
      SectionSlice L sec ∧ (StartTokensNonempty L → sec.type ≠ ""))
    ∧ ((parseLines L).inSection = true →
      ∃ a, a < L.length ∧ isStartLine (L.getD a "") = true ∧
        (parseLines L).content = L.drop (a + 1) ∧
        (∀ line ∈ (parseLines L).content,
          isStartLine line = false ∧ isEndLine line = false) ∧
        (StartTokensNonempty L →
          ((parseLines L).info.getD ⟨"", "", none⟩).type ≠ "")) := by
  induction L using List.reverseRecOn with
  | nil =>
    constructor
    · intro sec hsec
      cases hsec
    · intro h
      simp [parseLines, initState] at h
  | append_singleton L line ih =>
    obtain ⟨ihsec, ihopen⟩ := ih
    have hstep : parseLines (L ++ [line]) = parse_step (parseLines L) line := by
      rw [parseLines, List.foldl_append, List.foldl_cons, List.foldl_nil]
      rfl
    rw [hstep]
    by_cases hs : isStartLine line = true
    · rw [parse_step_start_eq _ _ hs]
      constructor
      · intro sec hsec
        simp only [] at hsec
        by_cases hin : (parseLines L).inSection = true
        · rw [if_pos hin] at hsec
          rcases List.mem_append.mp hsec with hold | hnew
          · exact ⟨SectionSlice_mono (ihsec sec hold).1,
              fun hST => (ihsec sec hold).2 (StartTokensNonempty_mono hST)⟩
          · rw [List.mem_singleton] at hnew
            subst hnew
            exact emit_slice_of_open line (ihopen hin) (Or.inl hs)
        · rw [if_neg hin] at hsec
          exact ⟨SectionSlice_mono (ihsec sec hsec).1,
            fun hST => (ihsec sec hsec).2 (StartTokensNonempty_mono hST)⟩
      · intro _
        refine ⟨L.length, ?_, ?_, ?_, ?_, ?_⟩
        · rw [List.length_append, List.length_singleton]
          omega
        · rw [List.getD_append_right _ _ _ _ (Nat.le_refl _), Nat.sub_self]
          simpa using hs
        · show ([] : List String) = _
          have : L.length + 1 = (L ++ [line]).length := by
            rw [List.length_append, List.length_singleton]
          rw [this, List.drop_length]
        · intro l hl
          cases hl
        · intro hST
          exact startSectionInfo_type_ne _ _
            (hST line (List.mem_append_right _ (List.mem_singleton_self _)) hs)
    · have hs' : isStartLine line = false := by simpa using hs
      by_cases he : isEndLine line = true
      · by_cases hin : (parseLines L).inSection = true
        · rw [parse_step_end_eq_in _ _ he hin]
          constructor
          · intro sec hsec
            simp only [] at hsec
            rcases List.mem_append.mp hsec with hold | hnew
            · exact ⟨SectionSlice_mono (ihsec sec hold).1,
                fun hST => (ihsec sec hold).2 (StartTokensNonempty_mono hST)⟩
            · rw [List.mem_singleton] at hnew
              subst hnew
              exact emit_slice_of_open line (ihopen hin) (Or.inr he)
          · intro h
            simp at h
        · have hin' : (parseLines L).inSection = false := by simpa using hin
          rw [parse_step_end_eq_out _ _ he hin']
          constructor
          · intro sec hsec
            exact ⟨SectionSlice_mono (ihsec sec hsec).1,
              fun hST => (ihsec sec hsec).2 (StartTokensNonempty_mono hST)⟩
          · intro h
            rw [hin'] at h
            cases h
      · have he' : isEndLine line = false := by simpa using he
        obtain ⟨hsec_eq, hinfo_eq, hinsec_eq, hcontent_eq⟩ :=
          parse_step_no_marker_proj (parseLines L) line hs' he'
        constructor
        · intro sec hsec
          rw [hsec_eq] at hsec
          exact ⟨SectionSlice_mono (ihsec sec hsec).1,
            fun hST => (ihsec sec hsec).2 (StartTokensNonempty_mono hST)⟩
        · intro h
          rw [hinsec_eq] at h
          obtain ⟨a, ha, hsa, hcontent, hmarkers, htype⟩ := ihopen h
          refine ⟨a, ?_, ?_, ?_, ?_, ?_⟩
          · rw [List.length_append, List.length_singleton]
            omega
          · rw [List.getD_append _ _ _ _ ha]
            exact hsa
          · rw [hcontent_eq, if_pos h, hcontent]
            rw [List.drop_append_of_le_length (by omega)]
          · intro l hl
            rw [hcontent_eq, if_pos h] at hl
            rcases List.mem_append.mp hl with hlold | hlnew
            · exact hmarkers l hlold
            · rw [List.mem_singleton] at hlnew
              subst hlnew
              exact ⟨hs', he'⟩
          · intro hST
            rw [hinfo_eq]
            exact htype (StartTokensNonempty_mono hST)

/-! ### Chord-scan invariants -/

theorem chordScan_spec (full : List Char) :
    ∀ (pending : Option (Nat × List Char)) (pos : Nat) (acc : List ChordData)
      (l : List Char),
      full.drop (pendingStart pos pending) = pendingFlush pending ++ l →
      pos = pendingStart pos pending + (pendingFlush pending).length →
      (∀ cd ∈ acc, cd.original_pos < pendingStart pos pending) →
      ∃ new, (chordScan pending pos acc l).1 = acc ++ new
        ∧ (∀ cd ∈ new, pendingStart pos pending ≤ cd.original_pos)
        ∧ ((pendingFlush pending).length + l.length
            = (chordScan pending pos acc l).2.length + sumChordLen new)
        ∧ (∀ cd ∈ new, (full.drop cd.original_pos).take (cd.chord.length + 2)
            = '[' :: cd.chord.data ++ [']'])
        ∧ (new = [] →
            (chordScan pending pos acc l).2 = pendingFlush pending ++ l)
        ∧ (∀ cd ∈ new, cd.pos
            = max 0 (adjustedPos ((chordScan pending pos acc l).1)
                cd.original_pos)) := by
  intro pending pos acc l
  induction pending, pos, acc, l using chordScan.induct with
  | case1 x acc =>
    intro _h1 _h2 _h3
    refine ⟨[], by simp [chordScan], ?_, ?_, ?_, ?_, ?_⟩
    · intro cd hcd; cases hcd
    · simp [chordScan, pendingFlush, sumChordLen]
    · intro cd hcd; cases hcd
    · intro _; simp [chordScan, pendingFlush]
    · intro cd hcd; cases hcd
  | case2 fst inner x acc =>
    intro _h1 _h2 _h3
    refine ⟨[], by simp [chordScan], ?_, ?_, ?_, ?_, ?_⟩
    · intro cd hcd; cases hcd
    · simp [chordScan, pendingFlush, sumChordLen]
    · intro cd hcd; cases hcd
    · intro _; simp [chordScan, pendingFlush]
    · intro cd hcd; cases hcd
  | case3 pos acc rest ih =>
    intro h1 h2 h3
    simp only [pendingStart, pendingFlush, List.nil_append] at h1 h2 h3
    have hcs : chordScan none pos acc ('[' :: rest)
        = chordScan (some (pos, [])) (pos + 1) acc rest := by
      simp [chordScan]
    obtain ⟨new, hn1, hn2, hn3, hn4, hn5, hn6⟩ := ih
      (by simp only [pendingStart, pendingFlush]; simpa using h1)
      (by simp [pendingStart, pendingFlush])
      (by simp only [pendingStart]; exact h3)
    simp only [pendingStart, pendingFlush] at hn1 hn2 hn3 hn5 hn6
    refine ⟨new, by rw [hcs]; exact hn1, ?_, ?_, hn4, ?_, ?_⟩
    · simp only [pendingStart, pendingFlush]
      exact hn2
    · simp only [pendingStart, pendingFlush, List.length_nil, List.length_cons,
        List.length_singleton] at hn3 ⊢
      rw [hcs]
      omega
    · intro hne
      simp only [pendingStart, pendingFlush, List.nil_append]
      rw [hcs]
      rw [hn5 hne]
      simp
    · rw [hcs]
      exact hn6
  | case4 pos acc c rest hc ih =>
    intro h1 h2 h3
    simp only [pendingStart, pendingFlush, List.nil_append] at h1 h2 h3
    have hcs : chordScan none pos acc (c :: rest)
        = ((chordScan none (pos + 1) acc rest).1,
            c :: (chordScan none (pos + 1) acc rest).2) := by
      simp [chordScan, hc]
    have hdrop : full.drop (pos + 1) = rest := by
      rw [← List.drop_drop, h1]
      rfl
    obtain ⟨new, hn1, hn2, hn3, hn4, hn5, hn6⟩ := ih
      (by simp only [pendingStart, pendingFlush, List.nil_append]; exact hdrop)
      (by simp [pendingStart, pendingFlush])
      (by
        simp only [pendingStart]
        intro cd hcd
        exact Nat.lt_succ_of_lt (h3 cd hcd))
    simp only [pendingStart, pendingFlush, List.nil_append] at hn1 hn2 hn3 hn5 hn6
    refine ⟨new, by rw [hcs]; exact hn1, ?_, ?_, hn4, ?_, ?_⟩
    · simp only [pendingStart, pendingFlush]
      intro cd hcd
      exact Nat.le_of_succ_le (hn2 cd hcd)
    · simp only [pendingStart, pendingFlush, List.length_nil, List.length_cons] at hn3 ⊢
      rw [hcs]
      simp only [List.length_cons]
      omega
    · intro hne
      simp only [pendingStart, pendingFlush, List.nil_append]
      rw [hcs]
      simp only []
      rw [hn5 hne]
    · rw [hcs]
      exact hn6
  | case5 p inner pos acc rest hEmpty ih =>
    intro h1 h2 h3
    have hinner : inner = [] := List.isEmpty_iff.mp hEmpty
    subst hinner
    simp only [pendingStart, pendingFlush, List.length_cons, List.length_nil] at h1 h2 h3
    have hcs : chordScan (some (p, [])) pos acc (']' :: rest)
        = ((chordScan none (pos + 1) acc rest).1,
            '[' :: ']' :: (chordScan none (pos + 1) acc rest).2) := by
      simp [chordScan]
    have hdrop : full.drop (pos + 1) = rest := by
      have hp : pos + 1 = p + 2 := by omega
      rw [hp, ← List.drop_drop, h1]
      rfl
    obtain ⟨new, hn1, hn2, hn3, hn4, hn5, hn6⟩ := ih
      (by simp only [pendingStart, pendingFlush, List.nil_append]; exact hdrop)
      (by simp [pendingStart, pendingFlush])
      (by
        simp only [pendingStart]
        intro cd hcd
        have := h3 cd hcd
        omega)
    simp only [pendingStart, pendingFlush, List.nil_append] at hn1 hn2 hn3 hn5 hn6
    refine ⟨new, by rw [hcs]; exact hn1, ?_, ?_, hn4, ?_, ?_⟩
    · simp only [pendingStart]
      intro cd hcd
      have := hn2 cd hcd
      omega
    · simp only [pendingStart, pendingFlush, List.length_nil, List.length_cons] at hn3 ⊢
      rw [hcs]
      simp only [List.length_cons]
      omega
    · intro hne
      simp only [pendingStart, pendingFlush]
      rw [hcs]
      simp only [List.cons_append, List.nil_append]
      rw [hn5 hne]
    · rw [hcs]
      exact hn6
  | case6 p inner pos acc rest hNE cd ih =>
    intro h1 h2 h3
    simp only [pendingStart, pendingFlush, List.length_cons] at h1 h2 h3
    have hcd_def : cd =
      { id := chordId inner p, pos := 0 ⊔ adjustedPos acc p,
        key := { data := inner }, chord := { data := inner },
        original_pos := p } := rfl
    have hcs : chordScan (some (p, inner)) pos acc (']' :: rest)
        = chordScan none (pos + 1) (acc ++ [cd]) rest := by
      simp only [chordScan, hNE, Bool.false_eq_true, if_false, if_neg hNE]
      rfl
    have hsplit : full.drop p = ('[' :: inner ++ [']']) ++ rest := by
      rw [h1]
      simp
    have hdrop : full.drop (pos + 1) = rest := by
      have hp : pos + 1 = p + (inner.length + 2) := by omega
      rw [hp, ← List.drop_drop, hsplit]
      have hlen : ('[' :: inner ++ [']']).length = inner.length + 2 := by
        simp
      rw [← hlen, List.drop_left]
    obtain ⟨new2, hn1, hn2, hn3, hn4, hn5, hn6⟩ := ih
      (by simp only [pendingStart, pendingFlush, List.nil_append]; exact hdrop)
      (by simp [pendingStart, pendingFlush])
      (by
        simp only [pendingStart]
        intro cd2 hcd2
        rcases List.mem_append.mp hcd2 with hm | hm
        · have := h3 cd2 hm
          omega
        · rw [List.mem_singleton] at hm
          subst hm
          show cd.original_pos < pos + 1
          simp only [hcd_def]
          omega)
    simp only [pendingStart, pendingFlush, List.nil_append] at hn1 hn2 hn3 hn5 hn6
    have hfilter : ∀ q : List ChordData,
        q = (chordScan none (pos + 1) (acc ++ [cd]) rest).1 →
        adjustedPos acc p = adjustedPos q p := by
      intro q hq
      rw [hq, hn1]
      unfold adjustedPos
      rw [List.append_assoc, List.singleton_append]
      rw [List.filter_append]
      have hnil : ((cd :: new2).filter
          (fun c => decide (c.original_pos < p))) = [] := by
        rw [List.filter_eq_nil_iff]
        intro a ha
        rcases List.mem_cons.mp ha with rfl | ha2
        · simp [hcd_def]
        · have := hn2 a ha2
          simp only [decide_eq_true_eq]
          omega
      rw [hnil, List.append_nil]
    refine ⟨cd :: new2, ?_, ?_, ?_, ?_, ?_, ?_⟩
    · rw [hcs, hn1, List.append_assoc, List.singleton_append]
    · simp only [pendingStart]
      intro cd2 hcd2
      rcases List.mem_cons.mp hcd2 with rfl | hm
      · simp [hcd_def]
      · have := hn2 cd2 hm
        omega
    · rw [hcs]
      have hchordlen : cd.chord.length = inner.length := by
        simp only [hcd_def]
        rfl
      simp only [pendingFlush, List.length_cons, List.length_nil, sumChordLen,
        List.foldr_cons, hchordlen] at hn3 ⊢
      omega
    · intro cd2 hcd2
      rcases List.mem_cons.mp hcd2 with rfl | hm
      · have hop : cd.original_pos = p := by simp [hcd_def]
        have hcdata : cd.chord.data = inner := by simp [hcd_def]
        have hclen : cd.chord.length = inner.length := by
          simp only [hcd_def]
          rfl
        rw [hop, hcdata, hclen, hsplit]
        have hlen : ('[' :: inner ++ [']']).length = inner.length + 2 := by
          simp
        rw [← hlen, List.take_left]
      · exact hn4 cd2 hm
    · intro hne
      cases hne
    · intro cd2 hcd2
      rcases List.mem_cons.mp hcd2 with rfl | hm
      · have hop : cd.original_pos = p := by simp [hcd_def]
        rw [hcs, hop, ← hfilter _ rfl]
      · rw [hcs]
        exact hn6 cd2 hm
  | case7 p inner pos acc c rest hc ih =>
    intro h1 h2 h3
    simp only [pendingStart, pendingFlush, List.length_cons] at h1 h2 h3
    have hcs : chordScan (some (p, inner)) pos acc (c :: rest)
        = chordScan (some (p, inner ++ [c])) (pos + 1) acc rest := by
      simp [chordScan, hc]
    obtain ⟨new, hn1, hn2, hn3, hn4, hn5, hn6⟩ := ih
      (by
        simp only [pendingStart, pendingFlush]
        rw [h1]
        simp)
      (by
        simp only [pendingStart, pendingFlush, List.length_cons,
          List.length_append, List.length_singleton, List.length_nil]
        omega)
      (by
        simp only [pendingStart]
        exact h3)
    simp only [pendingStart, pendingFlush] at hn1 hn2 hn3 hn5 hn6
    refine ⟨new, by rw [hcs]; exact hn1, ?_, ?_, hn4, ?_, ?_⟩
    · simp only [pendingStart]
      exact hn2
    · simp only [pendingFlush, List.length_cons] at hn3 ⊢
      rw [hcs]
      simp only [List.length_append, List.length_singleton] at hn3
      omega
    · intro hne
      simp only [pendingFlush]
      rw [hcs, hn5 hne]
      simp
    · rw [hcs]
      exact hn6

/-! ## Claim theorems -/

/-- C8: the Typography Normalizer is idempotent: applying
`fix_french_punctuation` twice yields the same result as applying it once,
for every string. -/
theorem fix_french_punctuation_idempotent (s : String) :
    fix_french_punctuation (fix_french_punctuation s) = fix_french_punctuation s := by
  show String.mk
      (subGuillemets (subDoublePunct (subGuillemets (subDoublePunct s.data))))
    = String.mk (subGuillemets (subDoublePunct s.data))
  rw [sub1_eq_self_of_normal _ (dpn_subGuillemets _ (dpn_subDoublePunct s.data))]
  rw [sg_eq_self_of_normal _ (gn_subGuillemets (subDoublePunct s.data))]

/-- C4 counterexample: in the two-character string `"a:"` no whitespace
adjoins any of the characters `;:!?»«`, yet `fix_french_punctuation`
changes it (it inserts a non-breaking space before the colon), so the
claim that such strings are returned unchanged is false. -/
theorem fix_french_punctuation_cex :
    (∀ x ∈ (String.mk ['a', ':']).data, isWS x = false) ∧
      fix_french_punctuation (String.mk ['a', ':']) ≠ String.mk ['a', ':'] := by
  constructor
  · decide
  · have h1 : subDoublePunct ['a', ':'] = ['a', nbsp, ':'] := by
      rw [sub1_other (by decide) (by decide)]
      rw [sub1_punct (by decide) (by decide)]
      rw [sub1_nil]
    have h2 : subGuillemets ['a', nbsp, ':'] = ['a', nbsp, ':'] :=
      sg_eq_self_of_no_guillemet (by decide)
    show String.mk (subGuillemets (subDoublePunct ['a', ':'])) ≠ _
    rw [h1, h2]
    intro hcontra
    have hdata := congrArg String.data hcontra
    simp only [String.data] at hdata
    cases hdata

/-- C4 (amended): `fix_french_punctuation` returns the input with exactly
these changes: every maximal whitespace run immediately preceding one of
`; : ! ? »` is replaced by a single non-breaking space, with one inserted
even when no whitespace precedes, and every maximal whitespace run
immediately following `«` is likewise replaced by a single non-breaking
space, inserted if absent (so the output is exactly characterized by the
two normal forms); the sequence of non-whitespace characters is
unchanged, and a string containing none of those special characters — in
particular the empty string — is returned unchanged. -/
theorem fix_french_punctuation_spec (s : String) :
    (fix_french_punctuation s).data.filter (fun c => !isWS c)
        = s.data.filter (fun c => !isWS c)
    ∧ doublePunctNormal (fix_french_punctuation s).data = true
    ∧ guillemetsNormal (fix_french_punctuation s).data = true
    ∧ ((∀ x ∈ s.data, isDoublePunct x = false ∧ x ≠ '«') →
        fix_french_punctuation s = s) := by
  refine ⟨?_, ?_, ?_, ?_⟩
  · show (subGuillemets (subDoublePunct s.data)).filter _ = _
    rw [filter_subGuillemets, filter_subDoublePunct]
  · exact dpn_subGuillemets _ (dpn_subDoublePunct s.data)
  · exact gn_subGuillemets _
  · intro h
    show String.mk (subGuillemets (subDoublePunct s.data)) = s
    rw [sub1_eq_self_of_no_punct s.data (fun x hx => (h x hx).1)]
    rw [sg_eq_self_of_no_guillemet (fun x hx => (h x hx).2)]

/-- Witness for `fix_french_punctuation_spec`: the hypothesis of its last
conjunct is discharged at the concrete string `"Dieu"`. -/
theorem fix_french_punctuation_spec_witness :
    fix_french_punctuation (String.mk ['D', 'i', 'e', 'u'])
      = String.mk ['D', 'i', 'e', 'u'] :=
  (fix_french_punctuation_spec (String.mk ['D', 'i', 'e', 'u'])).2.2.2 (by decide)


/-- C1 counterexample: for the two sections below (one with no content
lines, one with a single empty content line) the comment-filtered content
lines differ (`[] ≠ [""]`), yet both fingerprint to the empty joined
string, so the Section Deduplicator assigns them the same canonical index
(`index_map = [0, 0]`): "same canonical index iff identical
line-for-line" is false as stated. -/
theorem deduplicate_sections_cex :
    ¬ (((deduplicate_sections
          [{ name := "A", type := "verse", number := none, content := [],
             raw_content := "" },
           { name := "B", type := "verse", number := none, content := [""],
             raw_content := "" }]).2.getD 0 0
        = (deduplicate_sections
          [{ name := "A", type := "verse", number := none, content := [],
             raw_content := "" },
           { name := "B", type := "verse", number := none, content := [""],
             raw_content := "" }]).2.getD 1 0)
      ↔ contentLinesKey
          { name := "A", type := "verse", number := none, content := [],
            raw_content := "" }
        = contentLinesKey
          { name := "B", type := "verse", number := none, content := [""],
            raw_content := "" }) := by
  decide

/-- C1 (amended): for every section sequence, the index map has exactly
one entry per original section, every value in it is a valid index into
the canonical sequence, and two original sections receive the same
canonical index iff their fingerprints — the newline-joins of their
comment-filtered content lines — are equal; when every content line is
newline-free (as holds for parser-produced sections) and the filtered
line lists are non-empty, this coincides with line-for-line identity of
the filtered content. -/
theorem deduplicate_sections_spec (sections : List ChordProSection) :
    (deduplicate_sections sections).2.length = sections.length
    ∧ (∀ v ∈ (deduplicate_sections sections).2,
        v < (deduplicate_sections sections).1.length)
    ∧ (∀ i j, i < sections.length → j < sections.length →
        ((deduplicate_sections sections).2.getD i 0
            = (deduplicate_sections sections).2.getD j 0 ↔
          content_hash (sections.getD i dfltSection)
            = content_hash (sections.getD j dfltSection)))
    ∧ ((∀ sec ∈ sections, ∀ line ∈ sec.content, '\n' ∈ line.data → False) →
       ∀ i j, i < sections.length → j < sections.length →
        contentLinesKey (sections.getD i dfltSection) ≠ [] →
        contentLinesKey (sections.getD j dfltSection) ≠ [] →
        ((deduplicate_sections sections).2.getD i 0
            = (deduplicate_sections sections).2.getD j 0 ↔
          contentLinesKey (sections.getD i dfltSection)
            = contentLinesKey (sections.getD j dfltSection))) := by
  have hmain := dedupGo_spec sections [] [] [] [] rfl (by simp) rfl
    (by intro k hk; simp at hk)
  rw [List.nil_append] at hmain
  obtain ⟨hlen, hnodup, hlink⟩ := hmain
  have hds : deduplicate_sections sections = dedupGo sections [] [] [] := rfl
  rw [← hds] at hlen hnodup hlink
  have hvalid : ∀ v ∈ (deduplicate_sections sections).2,
      v < (deduplicate_sections sections).1.length := by
    intro v hv
    obtain ⟨n, hn, hvn⟩ := List.mem_iff_getElem.mp hv
    have hn2 : n < sections.length := by rw [← hlen]; exact hn
    have := (hlink n hn2).1
    rw [List.getD_eq_getElem _ _ hn, hvn] at this
    exact this
  have hiff : ∀ i j, i < sections.length → j < sections.length →
      ((deduplicate_sections sections).2.getD i 0
          = (deduplicate_sections sections).2.getD j 0 ↔
        content_hash (sections.getD i dfltSection)
          = content_hash (sections.getD j dfltSection)) := by
    intro i j hi hj
    obtain ⟨hbi, hli⟩ := hlink i hi
    obtain ⟨hbj, hlj⟩ := hlink j hj
    constructor
    · intro heq
      rw [hli, hlj, heq]
    · intro heq
      rw [hli, hlj] at heq
      have hinj := List.nodup_iff_injective_get.mp hnodup
      have hmi : i < (deduplicate_sections sections).2.length := by
        rw [hlen]; exact hi
      have hmj : j < (deduplicate_sections sections).2.length := by
        rw [hlen]; exact hj
      have hgi : ((deduplicate_sections sections).1.map content_hash).get
          ⟨(deduplicate_sections sections).2.getD i 0, by simpa using hbi⟩
          = ((deduplicate_sections sections).1.map content_hash).get
          ⟨(deduplicate_sections sections).2.getD j 0, by simpa using hbj⟩ := by
        simp only [List.get_eq_getElem, List.getElem_map]
        rw [← List.getD_eq_getElem _ dfltSection hbi,
          ← List.getD_eq_getElem _ dfltSection hbj]
        exact heq
      have := hinj hgi
      exact congrArg Fin.val this
  refine ⟨hlen, hvalid, hiff, ?_⟩
  intro hnl i j hi hj hne1 hne2
  rw [hiff i j hi hj]
  apply content_hash_eq_iff_key
  · intro line hl
    exact hnl _ (List.getD_eq_getElem sections dfltSection hi ▸
        List.getElem_mem _) line (List.mem_of_mem_filter hl)
  · intro line hl
    exact hnl _ (List.getD_eq_getElem sections dfltSection hj ▸
        List.getElem_mem _) line (List.mem_of_mem_filter hl)
  · exact hne1
  · exact hne2

/-- Witness for `deduplicate_sections_spec`: its index-validity and
fingerprint-iff conjuncts applied at a concrete two-section input with
distinct fingerprints. -/
theorem deduplicate_sections_spec_witness :
    ((deduplicate_sections
        [{ name := "A", type := "verse", number := none, content := ["x"],
           raw_content := "x" },
         { name := "B", type := "verse", number := none, content := ["y"],
           raw_content := "y" }]).2.getD 0 0
      = (deduplicate_sections
        [{ name := "A", type := "verse", number := none, content := ["x"],
           raw_content := "x" },
         { name := "B", type := "verse", number := none, content := ["y"],
           raw_content := "y" }]).2.getD 1 0
    ↔ content_hash
        ([{ name := "A", type := "verse", number := none, content := ["x"],
            raw_content := "x" },
          { name := "B", type := "verse", number := none, content := ["y"],
            raw_content := "y" }].getD 0 dfltSection)
      = content_hash
        ([{ name := "A", type := "verse", number := none, content := ["x"],
            raw_content := "x" },
          { name := "B", type := "verse", number := none, content := ["y"],
            raw_content := "y" }].getD 1 dfltSection)) :=
  (deduplicate_sections_spec _).2.2.1 0 1 (by decide) (by decide)


/-- C2: for every parsed document, the layout's slide-reference list has
one entry per original (pre-deduplication) section, and position `k`
references the slide identifier of the canonical section selected by
`index_map[k]`; in particular the concrete input consisting of two
identical chorus blocks with one distinct verse between them yields two
canonical sections and the three-entry layout `[A, B, A]` with `A ≠ B`. -/
theorem layout_slides_spec (sections : List ChordProSection) :
    (layout_slides sections).length = sections.length
    ∧ (∀ k, k < sections.length →
        (layout_slides sections).getD k ""
          = slide_id_input
              ((deduplicate_sections sections).1.getD
                ((deduplicate_sections sections).2.getD k 0) dfltSection)
              ((deduplicate_sections sections).2.getD k 0))
    ∧ ((deduplicate_sections (parseLines
          ["\x7bstart_of_chorus\x7d", "La la", "\x7bend_of_chorus\x7d",
           "\x7bstart_of_verse\x7d", "Hello", "\x7bend_of_verse\x7d",
           "\x7bstart_of_chorus\x7d", "La la", "\x7bend_of_chorus\x7d"]).sections).1.length = 2
      ∧ (layout_slides (parseLines
          ["\x7bstart_of_chorus\x7d", "La la", "\x7bend_of_chorus\x7d",
           "\x7bstart_of_verse\x7d", "Hello", "\x7bend_of_verse\x7d",
           "\x7bstart_of_chorus\x7d", "La la", "\x7bend_of_chorus\x7d"]).sections).length = 3
      ∧ (layout_slides (parseLines
          ["\x7bstart_of_chorus\x7d", "La la", "\x7bend_of_chorus\x7d",
           "\x7bstart_of_verse\x7d", "Hello", "\x7bend_of_verse\x7d",
           "\x7bstart_of_chorus\x7d", "La la", "\x7bend_of_chorus\x7d"]).sections).getD 0 ""
        = (layout_slides (parseLines
          ["\x7bstart_of_chorus\x7d", "La la", "\x7bend_of_chorus\x7d",
           "\x7bstart_of_verse\x7d", "Hello", "\x7bend_of_verse\x7d",
           "\x7bstart_of_chorus\x7d", "La la", "\x7bend_of_chorus\x7d"]).sections).getD 2 ""
      ∧ (layout_slides (parseLines
          ["\x7bstart_of_chorus\x7d", "La la", "\x7bend_of_chorus\x7d",
           "\x7bstart_of_verse\x7d", "Hello", "\x7bend_of_verse\x7d",
           "\x7bstart_of_chorus\x7d", "La la", "\x7bend_of_chorus\x7d"]).sections).getD 0 ""
        ≠ (layout_slides (parseLines
          ["\x7bstart_of_chorus\x7d", "La la", "\x7bend_of_chorus\x7d",
           "\x7bstart_of_verse\x7d", "Hello", "\x7bend_of_verse\x7d",
           "\x7bstart_of_chorus\x7d", "La la", "\x7bend_of_chorus\x7d"]).sections).getD 1 "") := by
  have hmain := dedupGo_spec sections [] [] [] [] rfl (by simp) rfl
    (by intro k hk; simp at hk)
  rw [List.nil_append] at hmain
  obtain ⟨hlen, _hnodup, hlink⟩ := hmain
  have hds : deduplicate_sections sections = dedupGo sections [] [] [] := rfl
  rw [← hds] at hlen hlink
  have hll : layout_slides sections
      = (deduplicate_sections sections).2.map
          (fun u => (unique_slide_ids (deduplicate_sections sections).1).getD u "") := rfl
  refine ⟨?_, ?_, by decide, by decide, by decide, by decide⟩
  · rw [hll, List.length_map, hlen]
  · intro k hk
    obtain ⟨hb, _⟩ := hlink k hk
    have hk2 : k < (deduplicate_sections sections).2.length := by
      rw [hlen]; exact hk
    rw [hll]
    rw [List.getD_eq_getElem _ _ (by rw [List.length_map]; exact hk2)]
    rw [List.getElem_map]
    rw [← List.getD_eq_getElem _ 0 hk2]
    show (unique_slide_ids_go 0 (deduplicate_sections sections).1).getD _ ""
      = _
    rw [unique_slide_ids_go_getD _ 0 _ hb]
    rw [Nat.zero_add]

/-- Witness for `layout_slides_spec`: its per-position conjunct applied at
`k = 0` for a concrete two-section input. -/
theorem layout_slides_spec_witness :
    (layout_slides
        [{ name := "A", type := "verse", number := none, content := ["x"],
           raw_content := "x" },
         { name := "B", type := "chorus", number := none, content := ["y"],
           raw_content := "y" }]).getD 0 ""
      = slide_id_input
          ((deduplicate_sections
            [{ name := "A", type := "verse", number := none, content := ["x"],
               raw_content := "x" },
             { name := "B", type := "chorus", number := none, content := ["y"],
               raw_content := "y" }]).1.getD
            ((deduplicate_sections
              [{ name := "A", type := "verse", number := none, content := ["x"],
                 raw_content := "x" },
               { name := "B", type := "chorus", number := none, content := ["y"],
                 raw_content := "y" }]).2.getD 0 0) dfltSection)
          ((deduplicate_sections
            [{ name := "A", type := "verse", number := none, content := ["x"],
               raw_content := "x" },
             { name := "B", type := "chorus", number := none, content := ["y"],
               raw_content := "y" }]).2.getD 0 0) :=
  (layout_slides_spec _).2.1 0 (by decide)


/-- C3: an unterminated trailing section is not emitted — input lines
beyond the last marker (none of which is a start or end marker) never add
a section to the parser's output — while a subsequent start marker closes
and emits the section that is open at that point. -/
theorem parse_chordpro_edge_policy :
    (∀ (lines extra : List String),
      (∀ l ∈ extra, isStartLine l = false ∧ isEndLine l = false) →
      (parseLines (lines ++ extra)).sections = (parseLines lines).sections)
    ∧ (∀ (lines : List String) (l : String), isStartLine l = true →
        (parseLines lines).inSection = true →
        (parseLines (lines ++ [l])).sections
          = (parseLines lines).sections
            ++ [mkSection ((parseLines lines).info.getD ⟨"", "", none⟩)
                  (parseLines lines).content]) := by
  constructor
  · intro lines extra h
    rw [parseLines, List.foldl_append]
    exact sections_stable extra _ h
  · intro lines l hl hin
    rw [parseLines, List.foldl_append, List.foldl_cons, List.foldl_nil]
    exact parse_step_start _ _ hl hin

/-- Witness for `parse_chordpro_edge_policy`: both parts applied at
concrete inputs — trailing lyric lines after an unterminated section add
no section, and a subsequent start marker emits the open verse. -/
theorem parse_chordpro_edge_policy_witness :
    ((parseLines (["\x7bstart_of_verse\x7d", "hello"] ++ ["world"])).sections
      = (parseLines ["\x7bstart_of_verse\x7d", "hello"]).sections)
    ∧ ((parseLines (["\x7bstart_of_verse\x7d", "hello"]
          ++ ["\x7bstart_of_chorus\x7d"])).sections
      = (parseLines ["\x7bstart_of_verse\x7d", "hello"]).sections
        ++ [mkSection ((parseLines
              ["\x7bstart_of_verse\x7d", "hello"]).info.getD ⟨"", "", none⟩)
              (parseLines ["\x7bstart_of_verse\x7d", "hello"]).content]) :=
  ⟨parse_chordpro_edge_policy.1 ["\x7bstart_of_verse\x7d", "hello"] ["world"]
      (by decide),
    parse_chordpro_edge_policy.2 ["\x7bstart_of_verse\x7d", "hello"]
      "\x7bstart_of_chorus\x7d" (by decide) (by decide)⟩


/-- C5 counterexample: the input `{start_of_}` / `x` / `{end_of_}` emits a
section whose type is the empty string (the block-type token
`stripped_line[10:-1]` is empty and no label overrides it), so "every
emitted Section has a non-empty type string" is false as stated. -/
theorem parse_empty_type_cex :
    ¬ (∀ sec ∈ (parseLines
        ["\x7bstart_of_\x7d", "x", "\x7bend_of_\x7d"]).sections,
        sec.type ≠ "") := by
  decide

/-- C5 (amended): every Section emitted by the Document Parser has content
equal to the exact run of input lines between its start marker and its
closing boundary (the matching end marker or the next start marker),
preserved verbatim and in order and containing no marker line; its type
string is non-empty provided every start marker of the input carries a
non-empty block-type token. -/
theorem parse_sections_spec (L : List String) :
    ∀ sec ∈ (parseLines L).sections,
      SectionSlice L sec ∧ (StartTokensNonempty L → sec.type ≠ "") :=
  (parse_inv_aux L).1

/-- Witness for `parse_sections_spec`: its conclusion at the single
section of a concrete three-line input, with both hypotheses discharged
by computation. -/
theorem parse_sections_spec_witness :
    SectionSlice ["\x7bstart_of_verse\x7d", "hello", "\x7bend_of_verse\x7d"]
        ((parseLines
          ["\x7bstart_of_verse\x7d", "hello", "\x7bend_of_verse\x7d"]).sections.getD
          0 dfltSection)
    ∧ ((parseLines
          ["\x7bstart_of_verse\x7d", "hello", "\x7bend_of_verse\x7d"]).sections.getD
          0 dfltSection).type ≠ "" := by
  have h := parse_sections_spec
    ["\x7bstart_of_verse\x7d", "hello", "\x7bend_of_verse\x7d"]
    ((parseLines
      ["\x7bstart_of_verse\x7d", "hello", "\x7bend_of_verse\x7d"]).sections.getD
      0 dfltSection)
    (by decide)
  exact ⟨h.1, h.2 (by unfold StartTokensNonempty; decide)⟩


/-- C6: for every content line, the chord-stripped clean text is the
original with exactly the bracket markup removed: the line's length is
the clean text's length plus the total bracket-markup length
`len("[" + chord + "]")` of the returned annotations, each returned
annotation's bracket markup occurs verbatim in the original line at its
recorded offset, and a line with no annotations is returned unchanged. -/
theorem parse_chord_line_spec (line : String) :
    line.length = (parse_chord_line line).2.length
        + sumChordLen (parse_chord_line line).1
    ∧ (∀ cd ∈ (parse_chord_line line).1,
        (line.data.drop cd.original_pos).take (cd.chord.length + 2)
          = '[' :: cd.chord.data ++ [']'])
    ∧ ((parse_chord_line line).1 = [] → (parse_chord_line line).2 = line) := by
  obtain ⟨new, hn1, _hn2, hn3, hn4, hn5, _hn6⟩ :=
    chordScan_spec line.data none 0 [] line.data
      (by simp [pendingStart, pendingFlush])
      (by simp [pendingStart, pendingFlush])
      (by intro cd hcd; cases hcd)
  rw [List.nil_append] at hn1
  simp only [pendingFlush, List.length_nil, Nat.zero_add] at hn3
  refine ⟨?_, ?_, ?_⟩
  · show line.data.length
      = (chordScan none 0 [] line.data).2.length
        + sumChordLen (chordScan none 0 [] line.data).1
    rw [hn1]
    exact hn3
  · intro cd hcd
    have hcd2 : cd ∈ new := by
      rw [← hn1]
      exact hcd
    exact hn4 cd hcd2
  · intro hempty
    have hempty2 : new = [] := by
      rw [← hn1]
      exact hempty
    have h5 := hn5 hempty2
    show String.mk (chordScan none 0 [] line.data).2 = line
    rw [h5]
    rfl

/-- Witness for `parse_chord_line_spec`: the bracket-markup occurrence
conjunct at the single chord of the concrete line `"a[C]b"`. -/
theorem parse_chord_line_spec_witness :
    (("a[C]b" : String).data.drop
        (((parse_chord_line "a[C]b").1.getD 0 dfltChord).original_pos)).take
        (((parse_chord_line "a[C]b").1.getD 0 dfltChord).chord.length + 2)
      = '[' :: ((parse_chord_line "a[C]b").1.getD 0 dfltChord).chord.data
          ++ [']'] :=
  (parse_chord_line_spec "a[C]b").2.1 _ (by decide)

/-- C7: every returned chord annotation's display offset equals its
bracket offset in the original line minus the total bracket-markup length
of the annotations found strictly to its left, clamped to zero as a
floor (`adjustedPos` performs exactly that subtraction over the
earlier-position filter), and every returned offset is non-negative. -/
theorem parse_chord_line_offsets (line : String) :
    ∀ cd ∈ (parse_chord_line line).1,
      cd.pos = max 0 (adjustedPos (parse_chord_line line).1 cd.original_pos)
      ∧ 0 ≤ cd.pos := by
  obtain ⟨new, hn1, _hn2, _hn3, _hn4, _hn5, hn6⟩ :=
    chordScan_spec line.data none 0 [] line.data
      (by simp [pendingStart, pendingFlush])
      (by simp [pendingStart, pendingFlush])
      (by intro cd hcd; cases hcd)
  rw [List.nil_append] at hn1
  intro cd hcd
  have hcd2 : cd ∈ new := by
    rw [← hn1]
    exact hcd
  have h6 := hn6 cd hcd2
  constructor
  · exact h6
  · rw [h6]
    exact le_max_left 0 _

/-- Witness for `parse_chord_line_offsets`: its conclusion at the single
chord of the concrete line `"a[C]b"`. -/
theorem parse_chord_line_offsets_witness :
    ((parse_chord_line "a[C]b").1.getD 0 dfltChord).pos
      = max 0 (adjustedPos (parse_chord_line "a[C]b").1
          ((parse_chord_line "a[C]b").1.getD 0 dfltChord).original_pos)
    ∧ 0 ≤ ((parse_chord_line "a[C]b").1.getD 0 dfltChord).pos :=
  parse_chord_line_offsets "a[C]b" _ (by decide)


/-- C9: when the lowercased filename stem is absent from the metadata
table, enhancement does not fail and header enrichment is simply
omitted: the output is exactly the optional key directive (present iff
the source document carried one), the blank separator, and the
re-serialized section blocks, and the header block (the lines before the
first blank line) is exactly that optional key directive — no number,
title, lyricist, composer, copyright or year lines. -/
theorem enhance_chordpro_missing_metadata
    (table : List (String × SongMetadata)) (stem : String) (content : String)
    (h : table.lookup (pyLower stem) = none) :
    enhance_chordpro table stem content
      = (match (parse_chordpro_file content).1.lookup "key" with
         | some v => ["\x7bkey: " ++ v ++ "\x7d"]
         | none => [])
        ++ [""] ++ (parse_chordpro_file content).2.flatMap section_block
    ∧ (enhance_chordpro table stem content).takeWhile
        (fun l => decide (l ≠ ""))
      = (match (parse_chordpro_file content).1.lookup "key" with
         | some v => ["\x7bkey: " ++ v ++ "\x7d"]
         | none => []) := by
  have hout : enhance_chordpro table stem content
      = (match (parse_chordpro_file content).1.lookup "key" with
         | some v => ["\x7bkey: " ++ v ++ "\x7d"]
         | none => [])
        ++ [""] ++ (parse_chordpro_file content).2.flatMap section_block := by
    unfold enhance_chordpro enhance_output_lines
    rw [h]
    rfl
  refine ⟨hout, ?_⟩
  rw [hout]
  cases hk : (parse_chordpro_file content).1.lookup "key" with
  | none => simp
  | some v =>
    have hne : ("\x7bkey: " ++ v ++ "\x7d" : String) ≠ "" := by
      intro hc
      have hlen := congrArg String.length hc
      simp only [String.length_append] at hlen
      have h7 : ("\x7bkey: " : String).length = 6 := by decide
      have h1 : ("\x7d" : String).length = 1 := by decide
      have h0 : ("" : String).length = 0 := by decide
      rw [h7, h1, h0] at hlen
      omega
    simp [hne]

/-- Witness for `enhance_chordpro_missing_metadata`: an empty metadata
table misses every stem; a source consisting of a single key directive
yields exactly that directive, the blank separator, and no section
blocks. -/
theorem enhance_chordpro_missing_metadata_witness :
    ([] : List (String × SongMetadata)).lookup (pyLower "song") = none
    ∧ (enhance_chordpro [] "song" "\x7bkey: D\x7d"
        = (match (parse_chordpro_file "\x7bkey: D\x7d").1.lookup "key" with
           | some v => ["\x7bkey: " ++ v ++ "\x7d"]
           | none => [])
          ++ [""]
          ++ (parse_chordpro_file "\x7bkey: D\x7d").2.flatMap section_block
      ∧ (enhance_chordpro [] "song" "\x7bkey: D\x7d").takeWhile
          (fun l => decide (l ≠ ""))
        = (match (parse_chordpro_file "\x7bkey: D\x7d").1.lookup "key" with
           | some v => ["\x7bkey: " ++ v ++ "\x7d"]
           | none => [])) :=
  ⟨rfl, enhance_chordpro_missing_metadata [] "song" "\x7bkey: D\x7d" rfl⟩

/-- C10: a content line whose stripped form begins with the comment
label but which carries leading material before the brace (so the
unstripped line does not begin with it) is excluded from the
deduplication fingerprint input of every section, yet the slide builder
renders it: its render is a display line, present in the slide of any
section whose content holds the line — the dedup filter tests the
stripped line while the slide builder tests the unstripped line. -/
theorem comment_line_discrepancy (line : String)
    (h1 : pyStartsWith (pyStrip line) "\x7bc:" = true)
    (h2 : pyStartsWith line "\x7bc:" = false) :
    (∀ sec : ChordProSection, line ∉ contentLinesKey sec)
    ∧ ∃ ld, renderLine line = some ld
        ∧ ∀ sec : ChordProSection, line ∈ sec.content →
            ld ∈ create_freeshow_slide_lines sec := by
  have hne : pyStrip line ≠ "" := by
    intro hc
    rw [hc] at h1
    exact absurd h1 (by decide)
  have hrl : renderLine line
      = some { text := fix_french_punctuation
                 (String.mk (stripEnum (parse_chord_line line).2.data)),
               chords := (parse_chord_line line).1 } := by
    unfold renderLine
    rw [h2]
    simp [hne]
  refine ⟨?_, ?_⟩
  · intro sec hmem
    have hp := (List.mem_filter.mp hmem).2
    rw [h1] at hp
    exact absurd hp (by decide)
  · refine ⟨_, hrl, ?_⟩
    intro sec hmem
    exact List.mem_filterMap.mpr ⟨line, hmem, hrl⟩

/-- Witness for `comment_line_discrepancy`: the line with two leading
spaces before the comment label satisfies both side conditions and
exhibits the discrepancy. -/
theorem comment_line_discrepancy_witness :
    (pyStartsWith (pyStrip "  \x7bc: x\x7d") "\x7bc:" = true
      ∧ pyStartsWith "  \x7bc: x\x7d" "\x7bc:" = false)
    ∧ ((∀ sec : ChordProSection, "  \x7bc: x\x7d" ∉ contentLinesKey sec)
       ∧ ∃ ld, renderLine "  \x7bc: x\x7d" = some ld
           ∧ ∀ sec : ChordProSection, "  \x7bc: x\x7d" ∈ sec.content →
               ld ∈ create_freeshow_slide_lines sec) :=
  ⟨⟨by decide, by decide⟩,
   comment_line_discrepancy "  \x7bc: x\x7d" (by decide) (by decide)⟩

end ChordPro
